import Mathlib

/-!
# Verification of the Tournament Scheduler core

Shallow embedding of the tournament-scheduler core:

* `round_robin_pairs` — circle-method schedule generation
  (from `src/core/tourney_starter.py`),
* `evaluate_schedule_travel` — the sequential travel-cost evaluator
  (from `src/core/tourney_starter.py`),
* the four validators (from `src/validators.py`),
* the four move primitives and the two optimizers
  (from `src/core/optimizers.py`).

Machine reals are embedded as `ℚ` (all quantities appearing in the claims are
exactly representable); Python list indexing, including negative indices and
`IndexError`, is embedded through `pyIdx`/`pyGet`/`pySet` with `Option` as the
failure monad.  Team ids are `Int` because the source uses `-1` as the bye
sentinel.
-/

/-- A match is a `(home_id, away_id)` pair of Python ints. -/
abbrev TMatch := Int × Int

/-- A round is a list of matches. -/
abbrev SRound := List TMatch

/-- A schedule is a list of rounds. -/
abbrev Schedule := List SRound

/-! ## Python sequence indexing -/

/-- Resolution of a Python sequence index: a nonnegative index addresses from
the front, a negative index from the back, anything else raises `IndexError`
(`none`). -/
def pyIdx (len : Nat) (i : Int) : Option Nat :=
  if 0 ≤ i ∧ i < (len : Int) then some i.toNat
  else if -(len : Int) ≤ i ∧ i < 0 then some (i + len).toNat
  else none

/-- Python `l[i]` (read). -/
def pyGet (l : List α) (i : Int) : Option α :=
  (pyIdx l.length i).bind fun j => l.get? j

/-- Python `l[i] = v` (write). -/
def pySet (l : List α) (i : Int) (v : α) : Option (List α) :=
  (pyIdx l.length i).map fun j => l.set j v

/-! ## Schedule generation (`round_robin_pairs`, tourney_starter.py lines 129-182)

The source builds `ids = list(range(n))`, appends the bye sentinel `-1` when
`n` is odd, and then produces `m-1` rounds (`m = len(ids)`), rotating `ids` by
`ids = [ids[0]] + [ids[-1]] + ids[1:-1]` after each round. -/

/-- The initial working list of team ids (`ids` in the source). -/
def initIds (n : Nat) : List Int :=
  if n % 2 = 1 then (List.range n).map Int.ofNat ++ [-1]
  else (List.range n).map Int.ofNat

/-- One rotation step: `ids = [ids[0]] + [ids[-1]] + ids[1:-1]`. -/
def rotateIds (l : List Int) : List Int :=
  l.take 1 ++ l.drop (l.length - 1) ++ (l.drop 1).dropLast

/-- Build one round from the current id ordering: pair `ids[i]` with
`ids[m-1-i]`, skip bye pairs, alternate home/away by round parity. -/
def mkRound (ids : List Int) (r : Nat) : SRound :=
  (List.range (ids.length / 2)).filterMap fun i =>
    let a := ids.getD i 0
    let b := ids.getD (ids.length - 1 - i) 0
    if a = -1 ∨ b = -1 then none
    else if r % 2 = 0 then some (a, b)
    else some (b, a)

/-- The main loop of `round_robin_pairs`: build `k` more rounds starting at
round index `r` from the current ordering `ids`. -/
def rrRounds : Nat → List Int → Nat → Schedule
  | 0, _, _ => []
  | k + 1, ids, r => mkRound ids r :: rrRounds k (rotateIds ids) (r + 1)

/-- `round_robin_pairs` for teams with ids `0..n-1` (the source only uses
`len(teams)` and `range(n)`). -/
def round_robin_pairs (n : Nat) : Schedule :=
  rrRounds ((initIds n).length - 1) (initIds n) 0

/-! ## Travel evaluation (`evaluate_schedule_travel`, tourney_starter.py 187-249) -/

/-- Fill the `round_loc` array for one round:
`round_loc[home] = home; round_loc[away] = home` for each match, in order.
Out-of-range ids raise (`none`); negative ids write Python-style from the
back. -/
def resolveRound (n : Nat) (rnd : SRound) : Option (List (Option Int)) :=
  rnd.foldlM
    (fun rl mt => do
      let rl1 ← pySet rl mt.1 (some mt.1)
      pySet rl1 mt.2 (some mt.1))
    (List.replicate n none)

/-- Process one round: compute each team's effective location, add the
distance moved, and update the location pointers. -/
def evalRound (n : Nat) (D : List (List ℚ)) (st : List Int × List ℚ) (rnd : SRound) :
    Option (List Int × List ℚ) := do
  let rl0 ← resolveRound n rnd
  let rloc := (List.range n).map fun t => (rl0.getD t none).getD (st.1.getD t 0)
  (List.range n).foldlM
    (fun st t =>
      let cur := st.1.getD t 0
      let tgt := rloc.getD t 0
      if cur ≠ tgt then do
        let row ← pyGet D cur
        let d ← pyGet row tgt
        pure (st.1.set t tgt, st.2.set t (st.2.getD t 0 + d))
      else pure st)
    st

/-- After the last round each team returns home if not already there. -/
def returnHome (n : Nat) (D : List (List ℚ)) (st : List Int × List ℚ) :
    Option (List Int × List ℚ) :=
  (List.range n).foldlM
    (fun st t =>
      let cur := st.1.getD t 0
      if cur ≠ (t : Int) then do
        let row ← pyGet D cur
        let d ← pyGet row (t : Int)
        pure (st.1.set t (t : Int), st.2.set t (st.2.getD t 0 + d))
      else pure st)
    st

/-- `evaluate_schedule_travel(rounds, teams, D)`; the `teams` argument is used
only through `len(teams)`, embedded as `n`. Returns per-team distances and
their sum. -/
def evaluate_schedule_travel (rounds : Schedule) (n : Nat) (D : List (List ℚ)) :
    Option (List ℚ × ℚ) := do
  let st0 : List Int × List ℚ := ((List.range n).map Int.ofNat, List.replicate n 0)
  let st ← rounds.foldlM (evalRound n D) st0
  let fin ← returnHome n D st
  pure (fin.2, fin.2.sum)

/-! ## Validators (`src/validators.py`)

Each Python validator returns `(ok, reasons)` where `ok` is `len(reasons) == 0`;
the embedding computes the `ok` flag, mirroring each reason-append by a
condition. -/

/-- Per-match step of `validate_schedule`: the accumulator is the
`teams_in_round` set (as a list, membership only) and the running
no-reason-appended flag. -/
def validate_round_step (n_teams : Nat) (acc : List Int × Bool) (mt : TMatch) :
    List Int × Bool :=
  let h := mt.1
  let a := mt.2
  let ok := acc.2
  let ok := if h ≠ -1 ∧ (h < 0 ∨ (n_teams : Int) ≤ h) then false else ok
  let ok := if a ≠ -1 ∧ (a < 0 ∨ (n_teams : Int) ≤ a) then false else ok
  let ok := if h ≠ -1 ∧ h ∈ acc.1 then false else ok
  let seen := if h ≠ -1 then h :: acc.1 else acc.1
  let ok := if a ≠ -1 ∧ a ∈ seen then false else ok
  let seen := if a ≠ -1 then a :: seen else seen
  let ok := if h = a ∧ h ≠ -1 then false else ok
  (seen, ok)

/-- `validate_schedule(schedule, n_teams)`: empty schedule fails; otherwise all
ids valid, no intra-round duplicate, no self-play. -/
def validate_schedule (schedule : Schedule) (n_teams : Nat) : Bool :=
  if schedule = [] then false
  else schedule.all fun rnd => (rnd.foldl (validate_round_step n_teams) ([], true)).2

/-- `max_team_id` computation of `check_max_consecutive_aways`. -/
def maxTeamId (schedule : Schedule) : Int :=
  schedule.foldl
    (fun m rnd =>
      rnd.foldl
        (fun m mt =>
          let m := if mt.1 ≠ -1 then max m mt.1 else m
          if mt.2 ≠ -1 then max m mt.2 else m)
        m)
    (-1)

/-- One round of the consecutive-aways scan for a fixed team: state is
`(consecutive_aways, no-violation-so-far)`; after a violation the streak
resets to `0` exactly as in the source. -/
def awayScanStep (k : Nat) (team : Int) (st : Nat × Bool) (rnd : SRound) : Nat × Bool :=
  let isAway :=
    match rnd.find? (fun mt => decide (mt.2 = team) || decide (mt.1 = team)) with
    | some mt => decide (mt.2 = team)
    | none => false
  if isAway then
    let c := st.1 + 1
    if k < c then (0, false) else (c, st.2)
  else (0, st.2)

/-- `check_max_consecutive_aways(schedule, k)`. -/
def check_max_consecutive_aways (schedule : Schedule) (k : Nat) : Bool :=
  if schedule = [] then true
  else
    let n : Nat := (maxTeamId schedule + 1).toNat
    (List.range n).all fun team =>
      (schedule.foldl (awayScanStep k (team : Int)) (0, true)).2

/-- `check_repeaters(schedule)`: no reverse fixture in the immediately
following round. -/
def check_repeaters (schedule : Schedule) : Bool :=
  (List.range (schedule.length - 1)).all fun rIdx =>
    let cur := schedule.getD rIdx []
    let nxt := schedule.getD (rIdx + 1) []
    nxt.all fun mt =>
      !(decide (mt.1 ≠ -1) && decide (mt.2 ≠ -1) &&
        cur.any fun c =>
          decide (c.1 ≠ -1) && decide (c.2 ≠ -1) && decide ((mt.2, mt.1) = c))

/-- Python `counts[i] += 1` with Python index semantics. -/
def pyIncr (l : List Nat) (i : Int) : Option (List Nat) := do
  let v ← pyGet l i
  pySet l i (v + 1)

/-- `check_home_away_balance(schedule, n_teams)`; the count updates use Python
list indexing (a negative id other than `-1` writes from the back or raises),
hence the `Option`. -/
def check_home_away_balance (schedule : Schedule) (n_teams : Nat) : Option Bool :=
  if schedule = [] then some true
  else do
    let cnts ←
      schedule.foldlM
        (fun (c : List Nat × List Nat) rnd =>
          rnd.foldlM
            (fun (c : List Nat × List Nat) mt => do
              let hc ← if mt.1 ≠ -1 ∧ mt.1 < (n_teams : Int) then pyIncr c.1 mt.1
                       else pure c.1
              let ac ← if mt.2 ≠ -1 ∧ mt.2 < (n_teams : Int) then pyIncr c.2 mt.2
                       else pure c.2
              pure (hc, ac))
            c)
        (List.replicate n_teams 0, List.replicate n_teams 0)
    pure <| (List.range n_teams).all fun t =>
      ((cnts.1.getD t 0 : Int) - (cnts.2.getD t 0 : Int)).natAbs ≤ 1

/-! ## Move primitives (`src/core/optimizers.py`)

`copy.deepcopy` is the identity on values; the heap model at the end of this
file additionally verifies that the Python-level mutations after the deep copy
never touch the caller's schedule object. -/

/-- `move_swap_rounds(schedule, r1, r2)` (optimizers.py 26-47). -/
def move_swap_rounds (schedule : Schedule) (r1 r2 : Int) : Schedule × Bool :=
  if r1 < 0 ∨ r2 < 0 ∨ (schedule.length : Int) ≤ r1 ∨ (schedule.length : Int) ≤ r2 then
    (schedule, false)
  else
    let a := schedule.getD r1.toNat []
    let b := schedule.getD r2.toNat []
    ((schedule.set r1.toNat b).set r2.toNat a, true)

/-- The team ids of the matches of `rnd` at positions other than `skip`
(the `round1_teams`/`round2_teams` sets of `move_swap_matches`; membership
only, so a list model of the Python set is faithful). -/
def roundTeamsExcept (rnd : SRound) (skip : Nat) : List Int :=
  (List.range rnd.length).flatMap fun idx =>
    if idx = skip then []
    else [(rnd.getD idx (0, 0)).1, (rnd.getD idx (0, 0)).2]

/-- `new_schedule[r][i] = v` for in-range `r`, `i`. -/
def setMatch (s : Schedule) (r i : Nat) (v : TMatch) : Schedule :=
  s.set r ((s.getD r []).set i v)

/-- `move_swap_matches(schedule, r1, i1, r2, i2)` (optimizers.py 50-107). -/
def move_swap_matches (schedule : Schedule) (r1 i1 r2 i2 : Int) : Schedule × Bool :=
  if r1 < 0 ∨ r2 < 0 ∨ (schedule.length : Int) ≤ r1 ∨ (schedule.length : Int) ≤ r2 ∨
      i1 < 0 ∨ i2 < 0 ∨ ((schedule.getD r1.toNat []).length : Int) ≤ i1 ∨
      ((schedule.getD r2.toNat []).length : Int) ≤ i2 then
    (schedule, false)
  else
    let R1 := schedule.getD r1.toNat []
    let R2 := schedule.getD r2.toNat []
    let m1 := R1.getD i1.toNat (0, 0)
    let m2 := R2.getD i2.toNat (0, 0)
    let round1_teams := roundTeamsExcept R1 i1.toNat
    let round2_teams := roundTeamsExcept R2 i2.toNat
    let teams1 := [m1.1, m1.2].filter (fun t => t ≠ -1)
    let teams2 := [m2.1, m2.2].filter (fun t => t ≠ -1)
    if teams1.any (fun t => decide (t ∈ round2_teams)) ∨
        teams2.any (fun t => decide (t ∈ round1_teams)) then
      (schedule, false)
    else
      (setMatch (setMatch schedule r1.toNat i1.toNat m2) r2.toNat i2.toNat m1, true)

/-- `move_flip_venue(schedule, round_idx, match_idx)` (optimizers.py 110-134). -/
def move_flip_venue (schedule : Schedule) (round_idx match_idx : Int) : Schedule × Bool :=
  if round_idx < 0 ∨ (schedule.length : Int) ≤ round_idx ∨ match_idx < 0 ∨
      ((schedule.getD round_idx.toNat []).length : Int) ≤ match_idx then
    (schedule, false)
  else
    let m := (schedule.getD round_idx.toNat []).getD match_idx.toNat (0, 0)
    (setMatch schedule round_idx.toNat match_idx.toNat (m.2, m.1), true)

/-- First loop of `move_swap_pairings`: walk `pairs_to_swap`, early-returning
feasibility `false` on an index `≥ len` (`some none`), raising on an index
`< -len` (`none`), and otherwise collecting the teams of both matches. -/
def collectSwapTeams (R1 R2 : SRound) :
    List (Int × Int) → List Int × List Int → Option (Option (List Int × List Int))
  | [], acc => some (some acc)
  | (idx1, idx2) :: rest, acc =>
    if (R1.length : Int) ≤ idx1 ∨ (R2.length : Int) ≤ idx2 then some none
    else do
      let m1 ← pyGet R1 idx1
      let m2 ← pyGet R2 idx2
      collectSwapTeams R1 R2 rest (acc.1 ++ [m1.1, m1.2], acc.2 ++ [m2.1, m2.2])

/-- The team ids of the matches of `rnd` whose position is not in `skips`
(Python compares the `int` position against the set of supplied indices, so a
negative supplied index never matches a position). -/
def roundTeamsNotIn (rnd : SRound) (skips : List Int) : List Int :=
  (List.range rnd.length).flatMap fun idx =>
    if (idx : Int) ∈ skips then []
    else [(rnd.getD idx (0, 0)).1, (rnd.getD idx (0, 0)).2]

/-- The swap loop of `move_swap_pairings`: for each `(idx1, idx2)` perform
`new[r1][idx1], new[r2][idx2] = new[r2][idx2], new[r1][idx1]` with Python
index semantics, rereading the current rounds so that `r1 = r2` aliasing is
respected. -/
def doPairSwaps (r1 r2 : Int) : List (Int × Int) → Schedule → Option Schedule
  | [], s => some s
  | (idx1, idx2) :: rest, s => do
    let R1 ← pyGet s r1
    let R2 ← pyGet s r2
    let v2 ← pyGet R2 idx2
    let v1 ← pyGet R1 idx1
    let j1 ← pyIdx R1.length idx1
    let s1 := s.set r1.toNat (R1.set j1 v2)
    let R2b ← pyGet s1 r2
    let j2 ← pyIdx R2b.length idx2
    doPairSwaps r1 r2 rest (s1.set r2.toNat (R2b.set j2 v1))

/-- `move_swap_pairings(schedule, r1, r2, pairs_to_swap)` (optimizers.py
137-205).  `none` models an uncaught `IndexError` (a pair index below
`-len`). -/
def move_swap_pairings (schedule : Schedule) (r1 r2 : Int)
    (pairs_to_swap : List (Int × Int)) : Option (Schedule × Bool) :=
  if r1 < 0 ∨ r2 < 0 ∨ (schedule.length : Int) ≤ r1 ∨ (schedule.length : Int) ≤ r2 then
    some (schedule, false)
  else do
    let R1 := schedule.getD r1.toNat []
    let R2 := schedule.getD r2.toNat []
    match ← collectSwapTeams R1 R2 pairs_to_swap ([], []) with
    | none => pure (schedule, false)
    | some acc =>
      let r1_other := roundTeamsNotIn R1 (pairs_to_swap.map Prod.fst)
      let r2_other := roundTeamsNotIn R2 (pairs_to_swap.map Prod.snd)
      let ts1 := acc.1.filter (fun t => t ≠ -1)
      let ts2 := acc.2.filter (fun t => t ≠ -1)
      let r1o := r1_other.filter (fun t => t ≠ -1)
      let r2o := r2_other.filter (fun t => t ≠ -1)
      if ts1.any (fun t => decide (t ∈ r2o)) ∨ ts2.any (fun t => decide (t ∈ r1o)) then
        pure (schedule, false)
      else do
        let s ← doPairSwaps r1 r2 pairs_to_swap schedule
        pure (s, true)

/-! ## `_validate_schedule_constraints` (optimizers.py 208-230) -/

/-- All four validators in source order with early exit; `check_max_consecutive_aways`
is called with `k = 3`. -/
def validate_schedule_constraints (schedule : Schedule) (n_teams : Nat) : Option Bool :=
  if ¬ validate_schedule schedule n_teams then some false
  else if ¬ check_max_consecutive_aways schedule 3 then some false
  else if ¬ check_repeaters schedule then some false
  else check_home_away_balance schedule n_teams

/-! ## Optimizers (`hill_climb`, `simulated_annealing`)

The stochastic choices (`random.choice`, `random.sample`, `random.randint`,
`random.random`) are abstracted by an oracle `Nat → MoveChoice` supplying each
iteration's decisions; every concrete execution of the Python loop corresponds
to some oracle (the Metropolis comparison `random.random() < exp(-delta/T)` is
abstracted by the Boolean `coin`).  Wall-clock telemetry is omitted. -/

/-- Which move function an element of the `moves` parameter is.  The optimizer
dispatch recognises only the three standard moves; anything else falls into
the `else: continue` branch (`unknown`). -/
inductive MoveKind
  | swapRounds
  | swapMatches
  | flipVenue
  | swapPairings
  | unknown
deriving DecidableEq, Repr, Inhabited

/-- The default move set `[move_swap_rounds, move_swap_matches, move_flip_venue]`. -/
def defaultMoves : List MoveKind := [.swapRounds, .swapMatches, .flipVenue]

/-- One iteration's worth of random decisions. -/
structure MoveChoice where
  moveIdx : Nat
  r1 : Nat
  r2 : Nat
  i1 : Nat
  i2 : Nat
  coin : Bool
deriving Repr, Inhabited

/-- Draw operands and run the selected move, mirroring the dispatch in both
optimizer loops.  `none` is a crash (e.g. `randint(0, -1)` on an empty
schedule), `some none` is a `continue` (unavailable operands, unrecognised
move, or `is_valid = False`), `some (some ns)` is a feasible candidate. -/
def pickCandidate (cur : Schedule) (mk : MoveKind) (c : MoveChoice) :
    Option (Option Schedule) :=
  match mk with
  | .swapRounds =>
    if cur.length < 2 then some none
    else
      let res := move_swap_rounds cur c.r1 c.r2
      if res.2 then some (some res.1) else some none
  | .swapMatches =>
    if cur.length < 2 then some none
    else if (cur.getD c.r1 []).length = 0 ∨ (cur.getD c.r2 []).length = 0 then some none
    else
      let res := move_swap_matches cur c.r1 c.i1 c.r2 c.i2
      if res.2 then some (some res.1) else some none
  | .flipVenue =>
    if cur.length = 0 then none
    else if (cur.getD c.r1 []).length = 0 then some none
    else
      let res := move_flip_venue cur c.r1 c.i1
      if res.2 then some (some res.1) else some none
  | _ => some none

/-- The floating-point tolerance `1e-6`. -/
def eps : ℚ := 1 / 1000000

/-- Hill-climbing loop state. -/
structure HCState where
  cur : Schedule
  curScore : ℚ
  best : Schedule
  bestScore : ℚ
  noImprove : Nat
  improvements : List (Nat × ℚ)
deriving Repr

/-- One iteration of `hill_climb` (optimizers.py 288-345). -/
def hc_step (n_teams : Nat) (D : List (List ℚ)) (moves : List MoveKind)
    (validate : Bool) (iteration : Nat) (st : HCState) (c : MoveChoice) :
    Option HCState := do
  let mk ← moves.get? c.moveIdx
  match ← pickCandidate st.cur mk c with
  | none => pure st
  | some ns => do
    let vok ← if validate then validate_schedule_constraints ns n_teams else pure true
    if ¬ vok then pure st
    else do
      let ev ← evaluate_schedule_travel ns n_teams D
      let newScore := ev.2
      if newScore < st.curScore - eps then
        let st1 : HCState :=
          { st with cur := ns, curScore := newScore, noImprove := 0 }
        if newScore < st.bestScore - eps then
          pure { st1 with
                 best := ns
                 bestScore := newScore
                 improvements := st1.improvements ++ [(iteration, newScore - newScore)] }
        else pure st1
      else pure { st with noImprove := st.noImprove + 1 }

/-- The iteration loop of `hill_climb`, with the `no_improve` early break. -/
def hc_loop (n_teams : Nat) (D : List (List ℚ)) (moves : List MoveKind)
    (validate : Bool) (maxNoImprove : Nat) (oracle : Nat → MoveChoice) :
    Nat → Nat → HCState → Option HCState
  | 0, _, st => some st
  | fuel + 1, iter, st =>
    if maxNoImprove ≤ st.noImprove then some st
    else do
      let st2 ← hc_step n_teams D moves validate iter st (oracle iter)
      hc_loop n_teams D moves validate maxNoImprove oracle fuel (iter + 1) st2

/-- `hill_climb` (optimizers.py 233-356), returning the best schedule and best
score.  With `max_iters = 0` the Python function raises `NameError` when
building its log (`iteration` is never bound), hence `none`. -/
def hill_climb (schedule : Schedule) (n_teams : Nat) (D : List (List ℚ))
    (moves : List MoveKind) (max_iters max_no_improve : Nat) (validate : Bool)
    (oracle : Nat → MoveChoice) : Option (Schedule × ℚ) :=
  if max_iters = 0 then none
  else do
    let ev ← evaluate_schedule_travel schedule n_teams D
    let st0 : HCState :=
      { cur := schedule, curScore := ev.2, best := schedule, bestScore := ev.2,
        noImprove := 0, improvements := [] }
    let stF ← hc_loop n_teams D moves validate max_no_improve oracle max_iters 0 st0
    pure (stF.best, stF.bestScore)

/-- Simulated-annealing loop state. -/
structure SAState where
  cur : Schedule
  curScore : ℚ
  best : Schedule
  bestScore : ℚ
  temp : ℚ
  improvements : List (Nat × ℚ)
deriving Repr

/-- One iteration of `simulated_annealing` (optimizers.py 417-481); the
temperature decays on every path through the loop body. -/
def sa_step (n_teams : Nat) (D : List (List ℚ)) (moves : List MoveKind)
    (validate : Bool) (decay : ℚ) (iteration : Nat) (st : SAState) (c : MoveChoice) :
    Option SAState := do
  let mk ← moves.get? c.moveIdx
  match ← pickCandidate st.cur mk c with
  | none => pure { st with temp := st.temp * decay }
  | some ns => do
    let vok ← if validate then validate_schedule_constraints ns n_teams else pure true
    if ¬ vok then pure { st with temp := st.temp * decay }
    else do
      let ev ← evaluate_schedule_travel ns n_teams D
      let newScore := ev.2
      let delta := newScore - st.curScore
      let accept : Bool := decide (delta < 0) || (decide ((0 : ℚ) < st.temp) && c.coin)
      if accept then
        let st1 : SAState := { st with cur := ns, curScore := newScore }
        if newScore < st.bestScore - eps then
          pure { st1 with
                 best := ns
                 bestScore := newScore
                 improvements := st1.improvements ++ [(iteration, newScore - newScore)]
                 temp := st.temp * decay }
        else pure { st1 with temp := st.temp * decay }
      else pure { st with temp := st.temp * decay }

/-- The iteration loop of `simulated_annealing` (fixed budget, no break). -/
def sa_loop (n_teams : Nat) (D : List (List ℚ)) (moves : List MoveKind)
    (validate : Bool) (decay : ℚ) (oracle : Nat → MoveChoice) :
    Nat → Nat → SAState → Option SAState
  | 0, _, st => some st
  | fuel + 1, iter, st => do
    let st2 ← sa_step n_teams D moves validate decay iter st (oracle iter)
    sa_loop n_teams D moves validate decay oracle fuel (iter + 1) st2

/-- `simulated_annealing` (optimizers.py 359-493), returning the best schedule
and best score; `max_iters = 0` raises as in `hill_climb`. -/
def simulated_annealing (schedule : Schedule) (n_teams : Nat) (D : List (List ℚ))
    (moves : List MoveKind) (T0 decay : ℚ) (max_iters : Nat) (validate : Bool)
    (oracle : Nat → MoveChoice) : Option (Schedule × ℚ) :=
  if max_iters = 0 then none
  else do
    let ev ← evaluate_schedule_travel schedule n_teams D
    let st0 : SAState :=
      { cur := schedule, curScore := ev.2, best := schedule, bestScore := ev.2,
        temp := T0, improvements := [] }
    let stF ← sa_loop n_teams D moves validate decay oracle max_iters 0 st0
    pure (stF.best, stF.bestScore)

/-! ## Closed-form description of the circle method (proof infrastructure)

The working list in round `r` is `0` followed by a rotation of the initial
tail; `vAt n r p` is the id at position `p` in round `r`. -/

/-- The tail `[1, …, n-1] (++ [-1] when n is odd)` of the initial working
list. -/
def initTail (n : Nat) : List Int :=
  (List.range (n - 1)).map (fun q => Int.ofNat (q + 1)) ++
    (if n % 2 = 1 then [-1] else [])

/-- `m - 1`, the length of the rotating tail (always odd for `n ≥ 2`). -/
def tailLen (n : Nat) : Nat := if n % 2 = 1 then n else n - 1

/-- The id stored at tail index `q`: team `q+1`, or the bye `-1` in the last
slot when `n` is odd. -/
def tval (n : Nat) (q : Nat) : Int := if q < n - 1 then Int.ofNat (q + 1) else -1

/-- The id at position `p` of the working list in round `r`. -/
def vAt (n r p : Nat) : Int :=
  if p = 0 then 0
  else tval n ((p - 1 + (tailLen n - 1) * r) % tailLen n)

/-- What slot `i` of round `r` emits, in terms of the closed form. -/
def emit (n r i : Nat) : Option TMatch :=
  if vAt n r i = -1 ∨ vAt n r (tailLen n - i) = -1 then none
  else if r % 2 = 0 then some (vAt n r i, vAt n r (tailLen n - i))
  else some (vAt n r (tailLen n - i), vAt n r i)

/-- The working-list position holding the bye `-1` in round `r` (odd `n`). -/
def byePos (n r : Nat) : Nat := 1 + ((tailLen n - 1 + r) % tailLen n)

/-- All id occurrences of a round (bye sentinel included). -/
def roundIds (rnd : SRound) : List Int := rnd.flatMap fun mt => [mt.1, mt.2]

/-- How many matches of the schedule are `(a, b)` or `(b, a)`. -/
def pairCount (sched : Schedule) (a b : Int) : Nat :=
  (sched.map fun rnd => rnd.countP fun mt => decide (mt = (a, b) ∨ mt = (b, a))).sum

/-! ## The intra-round no-duplicate invariant

The spec's central invariant: within any single round, no real (non `-1`)
team id appears more than once.  `roundRealIds` lists every real id
occurrence of a round (a self-pairing `(t, t)` contributes `t` twice). -/

/-- The real (non bye) ids of one match, in order. -/
def realIds (m : TMatch) : List Int := [m.1, m.2].filter (fun t => decide (t ≠ -1))

/-- All real id occurrences of a round. -/
def roundRealIds (rnd : SRound) : List Int := rnd.flatMap realIds

/-- No real team id occurs more than once in the round. -/
def noDupReal (rnd : SRound) : Prop := (roundRealIds rnd).Nodup

instance : DecidablePred noDupReal := fun _ => List.nodupDecidable _

/-- Every round of the schedule satisfies `noDupReal`. -/
def noDupRealSchedule (s : Schedule) : Prop := ∀ rnd ∈ s, noDupReal rnd

instance : DecidablePred noDupRealSchedule := fun s => List.decidableBAll _ s

/-- Simultaneous-replacement description of the swap loop of
`move_swap_pairings` acting on round `A` (used only in proofs): each listed
position of `A` receives the match of `B` at the paired position. -/
def multiSwap (pairs : List (Nat × Nat)) (A B : SRound) : SRound :=
  pairs.foldl (fun acc p => acc.set p.1 (B.getD p.2 (0, 0))) A

/-! ## Basic facts about the optimizer loops

`hc_step_cases`/`sa_step_cases`: a successful iteration either leaves the
best-ever pair untouched or replaces it by a freshly evaluated (and, when
validation is on, freshly validated) candidate whose score improves on the
best by more than the tolerance. -/

/-- The slot of round `r` that is skipped because it holds the bye (odd `n`). -/
def byeSlot (n r : Nat) : Nat := min (byePos n r) (tailLen n - byePos n r)

/-- The team id left idle in round `r` (odd `n`): the bye's slot partner. -/
def idleVal (n r : Nat) : Int := vAt n r (tailLen n - byePos n r)

/-- The working-list position of team `t` in round `r`. -/
def posOf (n r t : Nat) : Nat :=
  if t = 0 then 0 else 1 + ((t - 1 + r) % tailLen n)

/-- CPython-style heap for schedules: a store of round objects and a store of
schedule objects (lists of round addresses).  Addresses are store indices. -/
structure PyHeap where
  scheds : List (List Nat)
  rounds : List (List TMatch)

/-- The schedule value held at address `a`. -/
def heapValue (h : PyHeap) (a : Nat) : Schedule :=
  (h.scheds.getD a []).map fun ra => h.rounds.getD ra []

/-- Address `a` denotes a live schedule whose round addresses are live. -/
def heapWF (h : PyHeap) (a : Nat) : Prop :=
  a < h.scheds.length ∧ ∀ ra ∈ h.scheds.getD a [], ra < h.rounds.length

/-- `copy.deepcopy(schedule)`: fresh round objects with the same contents and
a fresh schedule object pointing at them. -/
def heapDeepcopy (h : PyHeap) (a : Nat) : PyHeap × Nat :=
  let addrs := h.scheds.getD a []
  let contents := addrs.map fun ra => h.rounds.getD ra []
  let fresh := (List.range addrs.length).map fun i => h.rounds.length + i
  (⟨h.scheds ++ [fresh], h.rounds ++ contents⟩, h.scheds.length)

/-- Heap-level `move_swap_rounds`: the checks read the argument object, every
path returns a deep copy, and the round swap rebinds two slots of the fresh
schedule object. -/
def heap_move_swap_rounds (h : PyHeap) (a : Nat) (r1 r2 : Int) :
    PyHeap × Nat × Bool :=
  let schedule := heapValue h a
  if r1 < 0 ∨ r2 < 0 ∨ (schedule.length : Int) ≤ r1 ∨
      (schedule.length : Int) ≤ r2 then
    ((heapDeepcopy h a).1, (heapDeepcopy h a).2, false)
  else
    let hc := (heapDeepcopy h a).1
    let na := (heapDeepcopy h a).2
    let lst := hc.scheds.getD na []
    let x1 := lst.getD r1.toNat 0
    let x2 := lst.getD r2.toNat 0
    (⟨hc.scheds.set na ((lst.set r1.toNat x2).set r2.toNat x1), hc.rounds⟩,
      na, true)

/-- Heap-level `move_flip_venue`: the flip writes one fresh round object. -/
def heap_move_flip_venue (h : PyHeap) (a : Nat) (round_idx match_idx : Int) :
    PyHeap × Nat × Bool :=
  let schedule := heapValue h a
  if round_idx < 0 ∨ (schedule.length : Int) ≤ round_idx ∨ match_idx < 0 ∨
      ((schedule.getD round_idx.toNat []).length : Int) ≤ match_idx then
    ((heapDeepcopy h a).1, (heapDeepcopy h a).2, false)
  else
    let hc := (heapDeepcopy h a).1
    let na := (heapDeepcopy h a).2
    let ra := (hc.scheds.getD na []).getD round_idx.toNat 0
    let ms := hc.rounds.getD ra []
    let m := ms.getD match_idx.toNat (0, 0)
    (⟨hc.scheds, hc.rounds.set ra (ms.set match_idx.toNat (m.2, m.1))⟩,
      na, true)

/-- Heap-level `move_swap_matches`: checks on the input value, then the tuple
assignment on the copy (right-hand sides read first, left slots written in
order, so `r1 = r2` aliasing is respected). -/
def heap_move_swap_matches (h : PyHeap) (a : Nat) (r1 i1 r2 i2 : Int) :
    PyHeap × Nat × Bool :=
  let schedule := heapValue h a
  if r1 < 0 ∨ r2 < 0 ∨ (schedule.length : Int) ≤ r1 ∨ (schedule.length : Int) ≤ r2 ∨
      i1 < 0 ∨ i2 < 0 ∨ ((schedule.getD r1.toNat []).length : Int) ≤ i1 ∨
      ((schedule.getD r2.toNat []).length : Int) ≤ i2 then
    ((heapDeepcopy h a).1, (heapDeepcopy h a).2, false)
  else
    let R1 := schedule.getD r1.toNat []
    let R2 := schedule.getD r2.toNat []
    let m1 := R1.getD i1.toNat (0, 0)
    let m2 := R2.getD i2.toNat (0, 0)
    let round1_teams := roundTeamsExcept R1 i1.toNat
    let round2_teams := roundTeamsExcept R2 i2.toNat
    let teams1 := [m1.1, m1.2].filter (fun t => t ≠ -1)
    let teams2 := [m2.1, m2.2].filter (fun t => t ≠ -1)
    if teams1.any (fun t => decide (t ∈ round2_teams)) ∨
        teams2.any (fun t => decide (t ∈ round1_teams)) then
      ((heapDeepcopy h a).1, (heapDeepcopy h a).2, false)
    else
      let hc := (heapDeepcopy h a).1
      let na := (heapDeepcopy h a).2
      let ra1 := (hc.scheds.getD na []).getD r1.toNat 0
      let ra2 := (hc.scheds.getD na []).getD r2.toNat 0
      let v2 := (hc.rounds.getD ra2 []).getD i2.toNat (0, 0)
      let v1 := (hc.rounds.getD ra1 []).getD i1.toNat (0, 0)
      let rounds1 := hc.rounds.set ra1 ((hc.rounds.getD ra1 []).set i1.toNat v2)
      let rounds2 := rounds1.set ra2 ((rounds1.getD ra2 []).set i2.toNat v1)
      (⟨hc.scheds, rounds2⟩, na, true)

/-- The swap loop of heap-level `move_swap_pairings`, acting on the round
store through the fresh schedule object's round addresses. -/
def heapPairSwaps (addrs : List Nat) (r1 r2 : Int) :
    List (Int × Int) → List (List TMatch) → Option (List (List TMatch))
  | [], rounds => some rounds
  | (idx1, idx2) :: rest, rounds => do
    let ra1 ← pyGet addrs r1
    let ra2 ← pyGet addrs r2
    let R1 := rounds.getD ra1 []
    let R2 := rounds.getD ra2 []
    let v2 ← pyGet R2 idx2
    let v1 ← pyGet R1 idx1
    let j1 ← pyIdx R1.length idx1
    let rounds1 := rounds.set ra1 (R1.set j1 v2)
    let R2b := rounds1.getD ra2 []
    let j2 ← pyIdx R2b.length idx2
    heapPairSwaps addrs r1 r2 rest (rounds1.set ra2 (R2b.set j2 v1))

/-- Heap-level `move_swap_pairings`; `none` models the uncaught `IndexError`. -/
def heap_move_swap_pairings (h : PyHeap) (a : Nat) (r1 r2 : Int)
    (pairs_to_swap : List (Int × Int)) : Option (PyHeap × Nat × Bool) :=
  let schedule := heapValue h a
  if r1 < 0 ∨ r2 < 0 ∨ (schedule.length : Int) ≤ r1 ∨
      (schedule.length : Int) ≤ r2 then
    some ((heapDeepcopy h a).1, (heapDeepcopy h a).2, false)
  else do
    let R1 := schedule.getD r1.toNat []
    let R2 := schedule.getD r2.toNat []
    match ← collectSwapTeams R1 R2 pairs_to_swap ([], []) with
    | none => pure ((heapDeepcopy h a).1, (heapDeepcopy h a).2, false)
    | some acc =>
      let r1_other := roundTeamsNotIn R1 (pairs_to_swap.map Prod.fst)
      let r2_other := roundTeamsNotIn R2 (pairs_to_swap.map Prod.snd)
      let ts1 := acc.1.filter (fun t => t ≠ -1)
      let ts2 := acc.2.filter (fun t => t ≠ -1)
      let r1o := r1_other.filter (fun t => t ≠ -1)
      let r2o := r2_other.filter (fun t => t ≠ -1)
      if ts1.any (fun t => decide (t ∈ r2o)) ∨
          ts2.any (fun t => decide (t ∈ r1o)) then
        pure ((heapDeepcopy h a).1, (heapDeepcopy h a).2, false)
      else do
        let hc := (heapDeepcopy h a).1
        let na := (heapDeepcopy h a).2
        let rounds2 ← heapPairSwaps (hc.scheds.getD na []) r1 r2
          pairs_to_swap hc.rounds
        pure ((⟨hc.scheds, rounds2⟩ : PyHeap), na, true)

theorem validate_constraints_eq_true_iff {s : Schedule} {n : Nat} :
    validate_schedule_constraints s n = some true ↔
      validate_schedule s n = true ∧ check_max_consecutive_aways s 3 = true ∧
      check_repeaters s = true ∧ check_home_away_balance s n = some true := by
  unfold validate_schedule_constraints
  split_ifs with hs1 hs2 hs3 <;> simp_all

theorem hc_step_cases {n : Nat} {D : List (List ℚ)} {moves : List MoveKind}
    {vld : Bool} {it : Nat} {st st2 : HCState} {c : MoveChoice}
    (h : hc_step n D moves vld it st c = some st2) :
    (st2.best = st.best ∧ st2.bestScore = st.bestScore) ∨
    (∃ ns ev, evaluate_schedule_travel ns n D = some ev ∧ st2.best = ns ∧
      st2.bestScore = ev.2 ∧ ev.2 < st.bestScore - eps ∧
      (vld = true → validate_schedule_constraints ns n = some true)) := by
  unfold hc_step at h
  simp only [Option.bind_eq_bind, Option.bind_eq_some] at h
  obtain ⟨mk, hmk, h⟩ := h
  obtain ⟨cand, hpc, h⟩ := h
  split at h
  · simp only [Option.pure_def, Option.some_inj] at h
    subst h; exact Or.inl ⟨rfl, rfl⟩
  · rename_i ns
    have key : ∀ st2,
        (do
        let ev ← evaluate_schedule_travel ns n D
        let newScore := ev.2
        if newScore < st.curScore - eps then
          let st1 : HCState := { st with cur := ns, curScore := newScore, noImprove := 0 }
          if newScore < st.bestScore - eps then
            pure { st1 with
                   best := ns
                   bestScore := newScore
                   improvements := st1.improvements ++ [(it, newScore - newScore)] }
          else pure st1
        else pure { st with noImprove := st.noImprove + 1 } : Option HCState) = some st2 →
        (vld = true → validate_schedule_constraints ns n = some true) →
        (st2.best = st.best ∧ st2.bestScore = st.bestScore) ∨
        (∃ ns ev, evaluate_schedule_travel ns n D = some ev ∧ st2.best = ns ∧
          st2.bestScore = ev.2 ∧ ev.2 < st.bestScore - eps ∧
          (vld = true → validate_schedule_constraints ns n = some true)) := by
      intro st2 hbody hval
      simp only [Option.bind_eq_bind, Option.bind_eq_some] at hbody
      obtain ⟨ev, hev, hbody⟩ := hbody
      split_ifs at hbody with h1 h2
      · simp only [Option.pure_def, Option.some_inj] at hbody
        subst hbody
        exact Or.inr ⟨ns, ev, hev, rfl, rfl, h2, hval⟩
      · simp only [Option.pure_def, Option.some_inj] at hbody
        subst hbody; exact Or.inl ⟨rfl, rfl⟩
      · simp only [Option.pure_def, Option.some_inj] at hbody
        subst hbody; exact Or.inl ⟨rfl, rfl⟩
    by_cases hvld : vld = true
    · rw [if_pos hvld] at h
      simp only [Option.bind_eq_bind, Option.bind_eq_some] at h
      obtain ⟨vok, hvok, h⟩ := h
      cases vok with
      | false =>
        simp only [Bool.false_eq_true, not_false_iff, if_pos, Option.pure_def,
          Option.some_inj] at h
        subst h; exact Or.inl ⟨rfl, rfl⟩
      | true =>
        rw [if_neg (not_not_intro rfl)] at h
        exact key st2 h (fun _ => hvok)
    · rw [if_neg hvld] at h
      simp only [Option.pure_def, Option.bind_eq_bind, Option.bind_eq_some] at h
      obtain ⟨vok, hvok, h⟩ := h
      simp only [Option.some_inj] at hvok
      subst hvok
      rw [if_neg (not_not_intro rfl)] at h
      exact key st2 (by simpa using h) (fun hc => absurd hc hvld)

theorem sa_step_cases {n : Nat} {D : List (List ℚ)} {moves : List MoveKind}
    {vld : Bool} {decay : ℚ} {it : Nat} {st st2 : SAState} {c : MoveChoice}
    (h : sa_step n D moves vld decay it st c = some st2) :
    (st2.best = st.best ∧ st2.bestScore = st.bestScore) ∨
    (∃ ns ev, evaluate_schedule_travel ns n D = some ev ∧ st2.best = ns ∧
      st2.bestScore = ev.2 ∧ ev.2 < st.bestScore - eps ∧
      (vld = true → validate_schedule_constraints ns n = some true)) := by
  unfold sa_step at h
  simp only [Option.bind_eq_bind, Option.bind_eq_some] at h
  obtain ⟨mk, hmk, h⟩ := h
  obtain ⟨cand, hpc, h⟩ := h
  split at h
  · simp only [Option.pure_def, Option.some_inj] at h
    subst h; exact Or.inl ⟨rfl, rfl⟩
  · rename_i ns
    have key : ∀ st2,
        (do
        let ev ← evaluate_schedule_travel ns n D
        let newScore := ev.2
        let delta := newScore - st.curScore
        let accept : Bool := decide (delta < 0) || (decide ((0 : ℚ) < st.temp) && c.coin)
        if accept then
          let st1 : SAState := { st with cur := ns, curScore := newScore }
          if newScore < st.bestScore - eps then
            pure { st1 with
                   best := ns
                   bestScore := newScore
                   improvements := st1.improvements ++ [(it, newScore - newScore)]
                   temp := st.temp * decay }
          else pure { st1 with temp := st.temp * decay }
        else pure { st with temp := st.temp * decay } : Option SAState) = some st2 →
        (vld = true → validate_schedule_constraints ns n = some true) →
        (st2.best = st.best ∧ st2.bestScore = st.bestScore) ∨
        (∃ ns ev, evaluate_schedule_travel ns n D = some ev ∧ st2.best = ns ∧
          st2.bestScore = ev.2 ∧ ev.2 < st.bestScore - eps ∧
          (vld = true → validate_schedule_constraints ns n = some true)) := by
      intro st2 hbody hval
      simp only [Option.bind_eq_bind, Option.bind_eq_some] at hbody
      obtain ⟨ev, hev, hbody⟩ := hbody
      split_ifs at hbody with h1 h2
      · simp only [Option.pure_def, Option.some_inj] at hbody
        subst hbody
        exact Or.inr ⟨ns, ev, hev, rfl, rfl, h2, hval⟩
      · simp only [Option.pure_def, Option.some_inj] at hbody
        subst hbody; exact Or.inl ⟨rfl, rfl⟩
      · simp only [Option.pure_def, Option.some_inj] at hbody
        subst hbody; exact Or.inl ⟨rfl, rfl⟩
    by_cases hvld : vld = true
    · rw [if_pos hvld] at h
      simp only [Option.bind_eq_bind, Option.bind_eq_some] at h
      obtain ⟨vok, hvok, h⟩ := h
      cases vok with
      | false =>
        simp only [Bool.false_eq_true, not_false_iff, if_pos, Option.pure_def,
          Option.some_inj] at h
        subst h; exact Or.inl ⟨rfl, rfl⟩
      | true =>
        rw [if_neg (not_not_intro rfl)] at h
        exact key st2 h (fun _ => hvok)
    · rw [if_neg hvld] at h
      simp only [Option.pure_def, Option.bind_eq_bind, Option.bind_eq_some] at h
      obtain ⟨vok, hvok, h⟩ := h
      simp only [Option.some_inj] at hvok
      subst hvok
      rw [if_neg (not_not_intro rfl)] at h
      exact key st2 (by simpa using h) (fun hc => absurd hc hvld)

theorem hc_loop_inv {n : Nat} {D : List (List ℚ)} {moves : List MoveKind}
    {vld : Bool} {mni : Nat} {oracle : Nat → MoveChoice} (Q : HCState → Prop)
    (hQ : ∀ it st c st2, Q st → hc_step n D moves vld it st c = some st2 → Q st2) :
    ∀ fuel it st stF, Q st → hc_loop n D moves vld mni oracle fuel it st = some stF →
      Q stF := by
  intro fuel
  induction fuel with
  | zero =>
    intro it st stF hq hrun
    simp only [hc_loop, Option.some_inj] at hrun
    subst hrun; exact hq
  | succ fuel ih =>
    intro it st stF hq hrun
    simp only [hc_loop] at hrun
    split_ifs at hrun with hbrk
    · simp only [Option.some_inj] at hrun; subst hrun; exact hq
    · simp only [Option.bind_eq_bind, Option.bind_eq_some] at hrun
      obtain ⟨st2, hstep, hrun⟩ := hrun
      exact ih (it + 1) st2 stF (hQ it st (oracle it) st2 hq hstep) hrun

theorem sa_loop_inv {n : Nat} {D : List (List ℚ)} {moves : List MoveKind}
    {vld : Bool} {decay : ℚ} {oracle : Nat → MoveChoice} (Q : SAState → Prop)
    (hQ : ∀ it st c st2, Q st → sa_step n D moves vld decay it st c = some st2 → Q st2) :
    ∀ fuel it st stF, Q st → sa_loop n D moves vld decay oracle fuel it st = some stF →
      Q stF := by
  intro fuel
  induction fuel with
  | zero =>
    intro it st stF hq hrun
    simp only [sa_loop, Option.some_inj] at hrun
    subst hrun; exact hq
  | succ fuel ih =>
    intro it st stF hq hrun
    simp only [sa_loop, Option.bind_eq_bind, Option.bind_eq_some] at hrun
    obtain ⟨st2, hstep, hrun⟩ := hrun
    exact ih (it + 1) st2 stF (hQ it st (oracle it) st2 hq hstep) hrun

theorem eps_pos : (0 : ℚ) < eps := by norm_num [eps]

/-! ## Claim C6 -/

/-- C6: On the two-team instance with distance matrix `[[0,100],[100,0]]` and
schedule `[[(0,1)]]`, `evaluate_schedule_travel` returns per-team distances
`[0, 200]` and total `200`: the home team never moves and the away team pays
the trip to the host plus the return trip home. -/
theorem evaluate_travel_two_team_round_trip :
    evaluate_schedule_travel [[(0, 1)]] 2 [[0, 100], [100, 0]] = some ([0, 200], 200) := by
  norm_num [evaluate_schedule_travel, evalRound, resolveRound, returnHome,
    pyGet, pySet, pyIdx, List.range_succ, List.foldlM, Option.bind,
    List.replicate, List.set, List.sum_cons]

/-! ## Claim C9 -/

/-- C9: The schedule `[[(0,1)],[(1,0)]]` with team count 2 is flagged by
`check_repeaters` and by no other validator: `validate_schedule`,
`check_max_consecutive_aways` with the default bound `k = 3`, and
`check_home_away_balance` all pass it. -/
theorem repeater_example_flagged_only_by_check_repeaters :
    check_repeaters [[(0, 1)], [(1, 0)]] = false ∧
    validate_schedule [[(0, 1)], [(1, 0)]] 2 = true ∧
    check_max_consecutive_aways [[(0, 1)], [(1, 0)]] 3 = true ∧
    check_home_away_balance [[(0, 1)], [(1, 0)]] 2 = some true :=
  ⟨by decide, by decide, by decide, by decide⟩

/-! ## Claim C4 -/

/-- C4: For every initial schedule, any parameters, any iteration budget
`max_iters ≥ 1` and every realization of the random choices, if
`simulated_annealing` returns, its best score is at most the baseline score
(the total travel of the initial schedule computed by
`evaluate_schedule_travel`): the best-ever tracker never regresses. -/
theorem simulated_annealing_best_le_baseline
    (schedule : Schedule) (n : Nat) (D : List (List ℚ)) (moves : List MoveKind)
    (T0 decay : ℚ) (max_iters : Nat) (vld : Bool) (oracle : Nat → MoveChoice)
    (bs : Schedule) (bsc : ℚ) (pt : List ℚ) (total : ℚ)
    (hmi : 1 ≤ max_iters)
    (hev : evaluate_schedule_travel schedule n D = some (pt, total))
    (hrun : simulated_annealing schedule n D moves T0 decay max_iters vld oracle =
      some (bs, bsc)) :
    bsc ≤ total := by
  unfold simulated_annealing at hrun
  rw [if_neg (by omega)] at hrun
  simp only [Option.bind_eq_bind, Option.bind_eq_some] at hrun
  obtain ⟨ev0, hev0, hrun⟩ := hrun
  obtain ⟨stF, hloop, hfin⟩ := hrun
  rw [hev] at hev0
  simp only [Option.some_inj] at hev0
  subst hev0
  simp only [Option.pure_def, Option.some_inj, Prod.mk.injEq] at hfin
  obtain ⟨hbs, hbsc⟩ := hfin
  subst hbsc
  refine sa_loop_inv (fun st => st.bestScore ≤ total) ?_ max_iters 0 _ stF (le_refl _) hloop
  intro it st c st2 hq hstep
  rcases sa_step_cases hstep with ⟨_, heq⟩ | ⟨ns, ev, _, _, hsc, hlt, _⟩
  · rw [heq]; exact hq
  · rw [hsc]
    have := eps_pos
    linarith

/-- Witness for C4 at a concrete instance. -/
theorem simulated_annealing_best_le_baseline_witness :
    simulated_annealing [[]] 0 [] defaultMoves 1 (1/2) 1 true (fun _ => default) =
      some ([[]], 0) ∧ (0 : ℚ) ≤ 0 :=
  ⟨by decide, by
    exact simulated_annealing_best_le_baseline [[]] 0 [] defaultMoves 1 (1/2) 1 true
      (fun _ => default) [[]] 0 [] 0 (by decide) (by decide) (by decide)⟩

/-! ## Claim C10 -/

/-- C10: For every input schedule, team count, distance matrix and parameter
setting, and every realization of the random choices, the best score returned
by `hill_climb` (respectively `simulated_annealing`) is exactly the total
travel distance `evaluate_schedule_travel` assigns to the returned best
schedule. -/
theorem optimizer_best_score_is_travel_of_best
    (schedule : Schedule) (n : Nat) (D : List (List ℚ)) (moves : List MoveKind)
    (max_iters max_no_improve : Nat) (vld : Bool) (T0 decay : ℚ)
    (oracle : Nat → MoveChoice) :
    (∀ bs bsc, hill_climb schedule n D moves max_iters max_no_improve vld oracle =
        some (bs, bsc) → ∃ pt, evaluate_schedule_travel bs n D = some (pt, bsc)) ∧
    (∀ bs bsc, simulated_annealing schedule n D moves T0 decay max_iters vld oracle =
        some (bs, bsc) → ∃ pt, evaluate_schedule_travel bs n D = some (pt, bsc)) := by
  constructor
  · intro bs bsc hrun
    unfold hill_climb at hrun
    by_cases hmi : max_iters = 0
    · rw [if_pos hmi] at hrun; exact absurd hrun (by simp)
    rw [if_neg hmi] at hrun
    simp only [Option.bind_eq_bind, Option.bind_eq_some] at hrun
    obtain ⟨ev0, hev0, stF, hloop, hfin⟩ := hrun
    simp only [Option.pure_def, Option.some_inj, Prod.mk.injEq] at hfin
    obtain ⟨hbs, hbsc⟩ := hfin
    subst hbs; subst hbsc
    refine hc_loop_inv
      (fun st => ∃ pt, evaluate_schedule_travel st.best n D = some (pt, st.bestScore))
      ?_ max_iters 0 _ stF ⟨ev0.1, by simpa using hev0⟩ hloop
    intro it st c st2 hq hstep
    rcases hc_step_cases hstep with ⟨hb, hsc⟩ | ⟨ns, ev, hev, hb, hsc, _, _⟩
    · rw [hb, hsc]; exact hq
    · exact ⟨ev.1, by rw [hb, hsc]; simpa using hev⟩
  · intro bs bsc hrun
    unfold simulated_annealing at hrun
    by_cases hmi : max_iters = 0
    · rw [if_pos hmi] at hrun; exact absurd hrun (by simp)
    rw [if_neg hmi] at hrun
    simp only [Option.bind_eq_bind, Option.bind_eq_some] at hrun
    obtain ⟨ev0, hev0, stF, hloop, hfin⟩ := hrun
    simp only [Option.pure_def, Option.some_inj, Prod.mk.injEq] at hfin
    obtain ⟨hbs, hbsc⟩ := hfin
    subst hbs; subst hbsc
    refine sa_loop_inv
      (fun st => ∃ pt, evaluate_schedule_travel st.best n D = some (pt, st.bestScore))
      ?_ max_iters 0 _ stF ⟨ev0.1, by simpa using hev0⟩ hloop
    intro it st c st2 hq hstep
    rcases sa_step_cases hstep with ⟨hb, hsc⟩ | ⟨ns, ev, hev, hb, hsc, _, _⟩
    · rw [hb, hsc]; exact hq
    · exact ⟨ev.1, by rw [hb, hsc]; simpa using hev⟩

/-- Witness for C10 at a concrete instance. -/
theorem optimizer_best_score_is_travel_of_best_witness :
    ∃ pt, evaluate_schedule_travel [[]] 0 [] = some (pt, 0) :=
  (optimizer_best_score_is_travel_of_best [[]] 0 [] defaultMoves 1 1 true 1 (1/2)
    (fun _ => default)).1 [[]] 0 (by decide)

/-! ## Claim C2 -/

/-- C2: If the initial schedule passes all four validators for the given team
count, then for every parameter setting and every realization of the random
choices, `hill_climb` with `validate = True` returns a best schedule that also
passes all four validators. -/
theorem hill_climb_validate_preserves_validators
    (schedule : Schedule) (n : Nat) (D : List (List ℚ)) (moves : List MoveKind)
    (max_iters max_no_improve : Nat) (oracle : Nat → MoveChoice) (bs : Schedule) (bsc : ℚ)
    (h1 : validate_schedule schedule n = true)
    (h2 : check_max_consecutive_aways schedule 3 = true)
    (h3 : check_repeaters schedule = true)
    (h4 : check_home_away_balance schedule n = some true)
    (hrun : hill_climb schedule n D moves max_iters max_no_improve true oracle =
      some (bs, bsc)) :
    validate_schedule bs n = true ∧ check_max_consecutive_aways bs 3 = true ∧
      check_repeaters bs = true ∧ check_home_away_balance bs n = some true := by
  unfold hill_climb at hrun
  by_cases hmi : max_iters = 0
  · rw [if_pos hmi] at hrun; exact absurd hrun (by simp)
  rw [if_neg hmi] at hrun
  simp only [Option.bind_eq_bind, Option.bind_eq_some] at hrun
  obtain ⟨ev0, hev0, stF, hloop, hfin⟩ := hrun
  simp only [Option.pure_def, Option.some_inj, Prod.mk.injEq] at hfin
  obtain ⟨hbs, hbsc⟩ := hfin
  subst hbs
  refine hc_loop_inv
    (fun st => validate_schedule st.best n = true ∧
      check_max_consecutive_aways st.best 3 = true ∧
      check_repeaters st.best = true ∧ check_home_away_balance st.best n = some true)
    ?_ max_iters 0 _ stF ⟨h1, h2, h3, h4⟩ hloop
  intro it st c st2 hq hstep
  rcases hc_step_cases hstep with ⟨hb, _⟩ | ⟨ns, ev, _, hb, _, _, hval⟩
  · rw [hb]; exact hq
  · rw [hb]
    exact validate_constraints_eq_true_iff.mp (hval rfl)

/-- Witness for C2 at a concrete instance. -/
theorem hill_climb_validate_preserves_validators_witness :
    validate_schedule [[]] 0 = true ∧ check_max_consecutive_aways [[]] 3 = true ∧
      check_repeaters [[]] = true ∧ check_home_away_balance [[]] 0 = some true :=
  hill_climb_validate_preserves_validators [[]] 0 [] defaultMoves 1 1
    (fun _ => default) [[]] 0 (by decide) (by decide) (by decide) (by decide) (by decide)

/-! ## Infrastructure for the move-primitive invariants (claims C3, C8) -/

theorem set_getD_self (l : List α) (i : Nat) (d : α) (h : i < l.length) :
    l.set i (l.getD i d) = l := by
  apply List.ext_getElem?
  intro j
  rw [List.getElem?_set]
  split_ifs with hij
  · subst hij
    simp [List.getD_eq_getElem?_getD, h, List.getElem?_eq_getElem h]
  · rfl

theorem getD_cons_perm :
    ∀ (k : Nat) (xs : List α) (x d : α), k < xs.length →
      List.Perm (xs.getD k d :: xs.set k x) (x :: xs)
  | 0, y :: ys, x, d, _ => by
    simpa using List.Perm.swap x y ys
  | k + 1, y :: ys, x, d, hk => by
    have ih := getD_cons_perm k ys x d (by simpa using hk)
    exact ((List.Perm.swap y (ys.getD k d) (ys.set k x)).trans (ih.cons y)).trans
      (List.Perm.swap x y ys)

theorem set_swap_perm (l : List α) (i j : Nat) (d : α) (hi : i < l.length)
    (hj : j < l.length) :
    List.Perm ((l.set i (l.getD j d)).set j (l.getD i d)) l := by
  by_cases hij : i = j
  · subst hij
    rw [List.set_set, set_getD_self l i d hi]
  · -- decompose: the doubly-set list is a permutation of l
    induction l generalizing i j with
    | nil => simp at hi
    | cons y ys ih =>
      cases i with
      | zero =>
        cases j with
        | zero => exact absurd rfl hij
        | succ j =>
          simp only [List.set_cons_zero, List.set_cons_succ, List.getD_cons_succ,
            List.getD_cons_zero]
          -- goal: Perm ((y::ys).getD (j+1) d :: ys.set j y) (y :: ys)
          exact getD_cons_perm j ys y d (by simpa using hj)
      | succ i =>
        cases j with
        | zero =>
          simp only [List.set_cons_succ, List.set_cons_zero, List.getD_cons_succ,
            List.getD_cons_zero]
          -- goal: Perm (ys.getD i d :: ys.set i y) (y :: ys)
          exact getD_cons_perm i ys y d (by simpa using hi)
        | succ j =>
          simp only [List.set_cons_succ, List.getD_cons_succ]
          exact (ih i j (by simpa using hi) (by simpa using hj)
            (fun hc => hij (by rw [hc]))).cons y

theorem noDupReal_of_perm {r1 r2 : SRound} (hp : List.Perm r1 r2) (h : noDupReal r2) :
    noDupReal r1 :=
  (List.Perm.nodup_iff (hp.flatMap_right realIds)).mpr h

theorem noDupReal_iff {rnd : SRound} :
    noDupReal rnd ↔ (∀ m ∈ rnd, (realIds m).Nodup) ∧
      rnd.Pairwise (fun m1 m2 => ∀ t, t ∈ realIds m1 → t ∉ realIds m2) := by
  unfold noDupReal roundRealIds
  rw [List.nodup_flatMap]
  constructor
  · rintro ⟨h1, h2⟩
    exact ⟨h1, h2.imp fun {a b} hd t ht1 ht2 => hd ht1 ht2⟩
  · rintro ⟨h1, h2⟩
    exact ⟨h1, h2.imp fun {a b} hd t ht1 ht2 => hd t ht1 ht2⟩

theorem list_getD_set_ne {l : List α} {i j : Nat} {x d : α} (h : i ≠ j) :
    (l.set i x).getD j d = l.getD j d := by
  simp [List.getD_eq_getElem?_getD, List.getElem?_set, h]

theorem list_getD_set_eq {l : List α} {i : Nat} {x d : α} (h : i < l.length) :
    (l.set i x).getD i d = x := by
  simp [List.getD_eq_getElem?_getD, List.getElem?_set, h]

theorem pyGet_eq_getD {l : List α} {i : Int} (h0 : 0 ≤ i) (h1 : i < (l.length : Int))
    (d : α) : pyGet l i = some (l.getD i.toNat d) := by
  have hlt : i.toNat < l.length := by omega
  unfold pyGet pyIdx
  rw [if_pos ⟨h0, h1⟩]
  simp [Option.bind, List.getElem?_eq_getElem hlt, List.getD_eq_getElem?_getD]

theorem pyIdx_nonneg {len : Nat} {i : Int} (h0 : 0 ≤ i) (h1 : i < (len : Int)) :
    pyIdx len i = some i.toNat := by
  unfold pyIdx
  rw [if_pos ⟨h0, h1⟩]

theorem mem_roundTeamsExcept {rnd : SRound} {skip : Nat} {t : Int} :
    t ∈ roundTeamsExcept rnd skip ↔
      ∃ q, q < rnd.length ∧ q ≠ skip ∧
        (t = (rnd.getD q (0, 0)).1 ∨ t = (rnd.getD q (0, 0)).2) := by
  unfold roundTeamsExcept
  simp only [List.mem_flatMap, List.mem_range]
  constructor
  · rintro ⟨q, hq, hmem⟩
    by_cases hqs : q = skip
    · rw [if_pos hqs] at hmem; simp at hmem
    · rw [if_neg hqs] at hmem
      simp only [List.mem_cons, List.mem_singleton, List.not_mem_nil, or_false] at hmem
      exact ⟨q, hq, hqs, hmem⟩
  · rintro ⟨q, hq, hqs, hval⟩
    refine ⟨q, hq, ?_⟩
    rw [if_neg hqs]
    simpa using hval

theorem mem_roundTeamsNotIn {rnd : SRound} {skips : List Int} {t : Int} :
    t ∈ roundTeamsNotIn rnd skips ↔
      ∃ q, q < rnd.length ∧ (q : Int) ∉ skips ∧
        (t = (rnd.getD q (0, 0)).1 ∨ t = (rnd.getD q (0, 0)).2) := by
  unfold roundTeamsNotIn
  simp only [List.mem_flatMap, List.mem_range]
  constructor
  · rintro ⟨q, hq, hmem⟩
    by_cases hqs : (q : Int) ∈ skips
    · rw [if_pos hqs] at hmem; simp at hmem
    · rw [if_neg hqs] at hmem
      simp only [List.mem_cons, List.mem_singleton, List.not_mem_nil, or_false] at hmem
      exact ⟨q, hq, hqs, hmem⟩
  · rintro ⟨q, hq, hqs, hval⟩
    refine ⟨q, hq, ?_⟩
    rw [if_neg hqs]
    simpa using hval

theorem multiSwap_length (pairs : List (Nat × Nat)) (A B : SRound) :
    (multiSwap pairs A B).length = A.length := by
  induction pairs generalizing A with
  | nil => rfl
  | cons p rest ih =>
    unfold multiSwap
    rw [List.foldl_cons]
    have := ih (A.set p.1 (B.getD p.2 (0, 0)))
    unfold multiSwap at this
    rw [this, List.length_set]

theorem multiSwap_getD_not_mem {pairs : List (Nat × Nat)} {A B : SRound} {q : Nat}
    (h : q ∉ pairs.map Prod.fst) (d : TMatch) :
    (multiSwap pairs A B).getD q d = A.getD q d := by
  induction pairs generalizing A with
  | nil => rfl
  | cons p rest ih =>
    simp only [List.map_cons, List.mem_cons] at h
    push_neg at h
    unfold multiSwap
    rw [List.foldl_cons]
    have := ih (fun hc => h.2 hc) (A := A.set p.1 (B.getD p.2 (0, 0)))
    unfold multiSwap at this
    rw [this, list_getD_set_ne (fun hc => h.1 hc.symm)]

theorem multiSwap_getD_mem {pairs : List (Nat × Nat)} {A B : SRound} {i j : Nat}
    (hf : (pairs.map Prod.fst).Nodup) (hmem : (i, j) ∈ pairs) (hi : i < A.length) :
    (multiSwap pairs A B).getD i (0, 0) = B.getD j (0, 0) := by
  induction pairs generalizing A with
  | nil => simp at hmem
  | cons p rest ih =>
    simp only [List.map_cons, List.nodup_cons] at hf
    rcases List.mem_cons.mp hmem with heq | hrest
    · subst heq
      unfold multiSwap
      rw [List.foldl_cons]
      have hnotin : i ∉ rest.map Prod.fst := by simpa using hf.1
      have := multiSwap_getD_not_mem (A := A.set i (B.getD j (0, 0)))
        (B := B) hnotin (0, 0)
      unfold multiSwap at this
      rw [this, list_getD_set_eq hi]
    · unfold multiSwap
      rw [List.foldl_cons]
      have := ih (A := A.set p.1 (B.getD p.2 (0, 0))) hf.2 hrest
        (by rw [List.length_set]; exact hi)
      unfold multiSwap at this
      rw [this]

theorem getD_eq_elem {l : List α} {q : Nat} {d : α} (hq : q < l.length) :
    l.getD q d = l[q] := by
  simp [List.getD_eq_getElem?_getD, List.getElem?_eq_getElem hq]

theorem pairwise_iff_getD {l : List α} {d : α} {Rel : α → α → Prop} :
    l.Pairwise Rel ↔ ∀ a b, a < b → b < l.length → Rel (l.getD a d) (l.getD b d) := by
  rw [List.pairwise_iff_get]
  constructor
  · intro h a b hab hb
    have ha : a < l.length := lt_trans hab hb
    have := h ⟨a, ha⟩ ⟨b, hb⟩ hab
    simp only [List.get_eq_getElem] at this
    rw [getD_eq_elem ha, getD_eq_elem hb]
    exact this
  · intro h i j hij
    have := h i j hij j.isLt
    rwa [getD_eq_elem (lt_trans hij j.isLt), getD_eq_elem j.isLt,
      ← List.get_eq_getElem, ← List.get_eq_getElem] at this

theorem mem_getD_of_lt {l : List α} {q : Nat} {d : α} (hq : q < l.length) :
    l.getD q d ∈ l := by
  rw [getD_eq_elem hq]
  exact List.getElem_mem hq

theorem noDupReal_getD {R : SRound} (h : noDupReal R) {q : Nat} (hq : q < R.length) :
    (realIds (R.getD q (0, 0))).Nodup :=
  (noDupReal_iff.mp h).1 _ (mem_getD_of_lt hq)

theorem noDupReal_disj {R : SRound} (h : noDupReal R) {q1 q2 : Nat} (h1 : q1 < R.length)
    (h2 : q2 < R.length) (hne : q1 ≠ q2) {t : Int}
    (ht : t ∈ realIds (R.getD q1 (0, 0))) : t ∉ realIds (R.getD q2 (0, 0)) := by
  have hp := (pairwise_iff_getD (d := ((0 : Int), (0 : Int)))).mp (noDupReal_iff.mp h).2
  rcases Nat.lt_or_ge q1 q2 with hlt | hge
  · exact hp q1 q2 hlt h2 t ht
  · have hlt2 : q2 < q1 := by omega
    intro ht2
    exact hp q2 q1 hlt2 h1 t ht2 ht

theorem multiSwap_nodup {A B : SRound} {pairs : List (Nat × Nat)}
    (hA : noDupReal A) (hB : noDupReal B)
    (hf : (pairs.map Prod.fst).Nodup) (hs : (pairs.map Prod.snd).Nodup)
    (hb2 : ∀ p ∈ pairs, p.2 < B.length)
    (hconf : ∀ p ∈ pairs, ∀ t ∈ realIds (B.getD p.2 (0, 0)), ∀ q, q < A.length →
      q ∉ pairs.map Prod.fst → t ∉ realIds (A.getD q (0, 0))) :
    noDupReal (multiSwap pairs A B) := by
  have hlen : (multiSwap pairs A B).length = A.length := multiSwap_length pairs A B
  have hdesc : ∀ q, q < A.length →
      (∃ j, (q, j) ∈ pairs ∧ j < B.length ∧
        (multiSwap pairs A B).getD q (0, 0) = B.getD j (0, 0)) ∨
      (q ∉ pairs.map Prod.fst ∧
        (multiSwap pairs A B).getD q (0, 0) = A.getD q (0, 0)) := by
    intro q hq
    by_cases hmem : q ∈ pairs.map Prod.fst
    · left
      obtain ⟨p, hp, hpq⟩ := List.mem_map.mp hmem
      have hpe : (q, p.2) ∈ pairs := by
        have hpp : p = (q, p.2) := by
          rw [← hpq]
        rwa [← hpp]
      exact ⟨p.2, hpe, hb2 p hp, multiSwap_getD_mem hf hpe hq⟩
    · exact Or.inr ⟨hmem, multiSwap_getD_not_mem hmem (0, 0)⟩
  rw [noDupReal_iff]
  constructor
  · intro m hm
    obtain ⟨q, hq, hqe⟩ := List.mem_iff_getElem.mp hm
    have hq2 : q < A.length := by omega
    have hqd : (multiSwap pairs A B).getD q (0, 0) = m := by
      rw [getD_eq_elem hq, hqe]
    rcases hdesc q hq2 with ⟨j, _, hj, he⟩ | ⟨_, he⟩
    · rw [← hqd, he]; exact noDupReal_getD hB hj
    · rw [← hqd, he]; exact noDupReal_getD hA hq2
  · rw [pairwise_iff_getD (d := ((0 : Int), (0 : Int)))]
    intro a b hab hb
    have hb2a : a < A.length := by omega
    have hb2b : b < A.length := by omega
    have hne : a ≠ b := by omega
    intro t
    rcases hdesc a hb2a with ⟨ja, hpa, hja, hea⟩ | ⟨hna, hea⟩ <;>
      rcases hdesc b hb2b with ⟨jb, hpb, hjb, heb⟩ | ⟨hnb, heb⟩
    · rw [hea, heb]
      have hjne : ja ≠ jb := by
        intro hc
        have hinj := List.inj_on_of_nodup_map hs hpa hpb
        have heq : (a, ja) = (b, jb) := hinj (by simpa using hc)
        exact hne (by simpa using congrArg Prod.fst heq)
      exact fun ht => noDupReal_disj hB hja hjb hjne ht
    · rw [hea, heb]
      intro ht
      exact hconf _ hpa t ht b hb2b hnb
    · rw [hea, heb]
      intro ht htB
      exact hconf _ hpb t htB a hb2a hna ht
    · rw [hea, heb]
      exact fun ht => noDupReal_disj hA hb2a hb2b hne ht

theorem multiSwap_congr_right {pairs : List (Nat × Nat)} {X B B2 : SRound}
    (h : ∀ p ∈ pairs, B2.getD p.2 (0, 0) = B.getD p.2 (0, 0)) :
    multiSwap pairs X B2 = multiSwap pairs X B := by
  induction pairs generalizing X with
  | nil => rfl
  | cons p rest ih =>
    unfold multiSwap
    rw [List.foldl_cons, h p (List.mem_cons_self p rest)]
    exact ih fun q hq => h q (List.mem_cons_of_mem p hq)

theorem doPairSwaps_spec {r1 r2 : Int} (h0r1 : 0 ≤ r1) (h0r2 : 0 ≤ r2) :
    ∀ (pairs : List (Int × Int)) (s : Schedule),
      r1.toNat < s.length → r2.toNat < s.length → r1.toNat ≠ r2.toNat →
      (∀ p ∈ pairs, 0 ≤ p.1 ∧ p.1 < ((s.getD r1.toNat []).length : Int) ∧
        0 ≤ p.2 ∧ p.2 < ((s.getD r2.toNat []).length : Int)) →
      (pairs.map Prod.fst).Nodup → (pairs.map Prod.snd).Nodup →
      ∃ s2, doPairSwaps r1 r2 pairs s = some s2 ∧
        s2.length = s.length ∧
        (∀ q, q ≠ r1.toNat → q ≠ r2.toNat → s2.getD q [] = s.getD q []) ∧
        s2.getD r1.toNat [] =
          multiSwap (pairs.map fun p => (p.1.toNat, p.2.toNat))
            (s.getD r1.toNat []) (s.getD r2.toNat []) ∧
        s2.getD r2.toNat [] =
          multiSwap (pairs.map fun p => (p.2.toNat, p.1.toNat))
            (s.getD r2.toNat []) (s.getD r1.toNat [])
  | [], s => by
    intro hr1 hr2 hne hb hf hs
    exact ⟨s, rfl, rfl, fun q _ _ => rfl, rfl, rfl⟩
  | (i1, i2) :: rest, s => by
    intro hr1 hr2 hne hb hf hsn
    obtain ⟨hi1n, hi1l, hi2n, hi2l⟩ := hb (i1, i2) (List.mem_cons_self _ _)
    have hfc : i1 ∉ rest.map Prod.fst ∧ (rest.map Prod.fst).Nodup := by
      have := hf; simp only [List.map_cons, List.nodup_cons] at this; exact this
    have hsc : i2 ∉ rest.map Prod.snd ∧ (rest.map Prod.snd).Nodup := by
      have := hsn; simp only [List.map_cons, List.nodup_cons] at this; exact this
    set A := s.getD r1.toNat [] with hA
    set B := s.getD r2.toNat [] with hB
    have hgA : pyGet s r1 = some A := pyGet_eq_getD h0r1 (by omega) []
    have hgB : pyGet s r2 = some B := pyGet_eq_getD h0r2 (by omega) []
    have hv2 : pyGet B i2 = some (B.getD i2.toNat (0, 0)) := pyGet_eq_getD hi2n hi2l _
    have hv1 : pyGet A i1 = some (A.getD i1.toNat (0, 0)) := pyGet_eq_getD hi1n hi1l _
    have hj1 : pyIdx A.length i1 = some i1.toNat := pyIdx_nonneg hi1n hi1l
    set v2 := B.getD i2.toNat (0, 0)
    set v1 := A.getD i1.toNat (0, 0)
    set s1 := s.set r1.toNat (A.set i1.toNat v2) with hs1
    have hs1len : s1.length = s.length := by
      rw [hs1, List.length_set]
    have hs1r2 : s1.getD r2.toNat [] = B := by
      rw [hs1, list_getD_set_ne (fun hc => hne hc)]
    have hgB2 : pyGet s1 r2 = some B := by
      rw [← hs1r2]
      exact pyGet_eq_getD h0r2 (by omega) []
    have hj2 : pyIdx B.length i2 = some i2.toNat := pyIdx_nonneg hi2n hi2l
    set s3 := s1.set r2.toNat (B.set i2.toNat v1) with hs3
    have hstep : doPairSwaps r1 r2 ((i1, i2) :: rest) s = doPairSwaps r1 r2 rest s3 := by
      simp only [doPairSwaps, hgA, hgB, hv2, hv1, hj1, hgB2, hj2,
        Option.bind_eq_bind, Option.some_bind]
    -- facts about s3
    have hs3len : s3.length = s.length := by rw [hs3, List.length_set, hs1len]
    have hs3r1 : s3.getD r1.toNat [] = A.set i1.toNat v2 := by
      rw [hs3, list_getD_set_ne (fun hc => hne hc.symm), hs1,
        list_getD_set_eq (by omega)]
    have hs3r2 : s3.getD r2.toNat [] = B.set i2.toNat v1 := by
      rw [hs3, list_getD_set_eq (by omega)]
    have hs3other : ∀ q, q ≠ r1.toNat → q ≠ r2.toNat → s3.getD q [] = s.getD q [] := by
      intro q hq1 hq2
      rw [hs3, list_getD_set_ne (fun hc => hq2 hc.symm), hs1,
        list_getD_set_ne (fun hc => hq1 hc.symm)]
    -- apply the induction hypothesis to s3
    have hrest := doPairSwaps_spec h0r1 h0r2 rest s3 (by omega) (by omega) hne ?hbrest
      hfc.2 hsc.2
    case hbrest =>
      intro p hp
      obtain ⟨hp1, hp2, hp3, hp4⟩ := hb p (List.mem_cons_of_mem _ hp)
      refine ⟨hp1, ?_, hp3, ?_⟩
      · rw [hs3r1, List.length_set]; exact hp2
      · rw [hs3r2, List.length_set]; exact hp4
    obtain ⟨s2, hrun, hlen, hother, hr1d, hr2d⟩ := hrest
    refine ⟨s2, by rw [hstep]; exact hrun, by rw [hlen, hs3len], ?_, ?_, ?_⟩
    · intro q hq1 hq2
      rw [hother q hq1 hq2, hs3other q hq1 hq2]
    · -- round r1
      have hi2notin : i2 ∉ rest.map Prod.snd := hsc.1
      have hcong : ∀ p ∈ rest.map (fun p => (p.1.toNat, p.2.toNat)),
          (B.set i2.toNat v1).getD p.2 (0, 0) = B.getD p.2 (0, 0) := by
        intro p hp
        obtain ⟨p0, hp0, rfl⟩ := List.mem_map.mp hp
        obtain ⟨hq1, _, hq3, _⟩ := hb p0 (List.mem_cons_of_mem _ hp0)
        have hne2 : p0.2.toNat ≠ i2.toNat := by
          intro hc
          apply hi2notin
          have : p0.2 = i2 := by omega
          rw [← this]
          exact List.mem_map.mpr ⟨p0, hp0, rfl⟩
        exact list_getD_set_ne (fun hc => hne2 hc.symm)
      rw [hr1d, hs3r1, hs3r2, multiSwap_congr_right hcong]
      simp only [List.map_cons]
      unfold multiSwap
      rw [List.foldl_cons]
    · -- round r2
      have hi1notin : i1 ∉ rest.map Prod.fst := hfc.1
      have hcong : ∀ p ∈ rest.map (fun p => (p.2.toNat, p.1.toNat)),
          (A.set i1.toNat v2).getD p.2 (0, 0) = A.getD p.2 (0, 0) := by
        intro p hp
        obtain ⟨p0, hp0, rfl⟩ := List.mem_map.mp hp
        obtain ⟨hq1, _, _, _⟩ := hb p0 (List.mem_cons_of_mem _ hp0)
        have hne2 : p0.1.toNat ≠ i1.toNat := by
          intro hc
          apply hi1notin
          have : p0.1 = i1 := by omega
          rw [← this]
          exact List.mem_map.mpr ⟨p0, hp0, rfl⟩
        exact list_getD_set_ne (fun hc => hne2 hc.symm)
      rw [hr2d, hs3r2, hs3r1, multiSwap_congr_right hcong]
      simp only [List.map_cons]
      unfold multiSwap
      rw [List.foldl_cons]

theorem doPairSwaps_same_spec {r1 r2 : Int} (h0r1 : 0 ≤ r1) (h0r2 : 0 ≤ r2)
    (heq : r1.toNat = r2.toNat) :
    ∀ (pairs : List (Int × Int)) (s : Schedule),
      r1.toNat < s.length →
      (∀ p ∈ pairs, 0 ≤ p.1 ∧ p.1 < ((s.getD r1.toNat []).length : Int) ∧
        0 ≤ p.2 ∧ p.2 < ((s.getD r1.toNat []).length : Int)) →
      ∃ s2, doPairSwaps r1 r2 pairs s = some s2 ∧
        s2.length = s.length ∧
        (∀ q, q ≠ r1.toNat → s2.getD q [] = s.getD q []) ∧
        List.Perm (s2.getD r1.toNat []) (s.getD r1.toNat [])
  | [], s => by
    intro hr1 hb
    exact ⟨s, rfl, rfl, fun q _ => rfl, List.Perm.refl _⟩
  | (i1, i2) :: rest, s => by
    intro hr1 hb
    obtain ⟨hi1n, hi1l, hi2n, hi2l⟩ := hb (i1, i2) (List.mem_cons_self _ _)
    set A := s.getD r1.toNat [] with hA
    have hgA : pyGet s r1 = some A := pyGet_eq_getD h0r1 (by omega) []
    have hgB : pyGet s r2 = some A := by
      have := pyGet_eq_getD (l := s) h0r2 (by omega) ([] : SRound)
      rwa [← heq] at this
    have hv2 : pyGet A i2 = some (A.getD i2.toNat (0, 0)) := pyGet_eq_getD hi2n hi2l _
    have hv1 : pyGet A i1 = some (A.getD i1.toNat (0, 0)) := pyGet_eq_getD hi1n hi1l _
    have hj1 : pyIdx A.length i1 = some i1.toNat := pyIdx_nonneg hi1n hi1l
    set v2 := A.getD i2.toNat (0, 0)
    set v1 := A.getD i1.toNat (0, 0)
    set A1 := A.set i1.toNat v2 with hA1
    set s1 := s.set r1.toNat A1 with hs1
    have hs1len : s1.length = s.length := by rw [hs1, List.length_set]
    have hs1r2 : s1.getD r2.toNat [] = A1 := by
      rw [hs1, ← heq, list_getD_set_eq (by omega)]
    have hgB2 : pyGet s1 r2 = some A1 := by
      rw [← hs1r2]
      exact pyGet_eq_getD h0r2 (by omega) []
    have hj2 : pyIdx A1.length i2 = some i2.toNat := by
      apply pyIdx_nonneg hi2n
      rw [hA1, List.length_set]
      exact hi2l
    set A2 := A1.set i2.toNat v1 with hA2
    set s3 := s1.set r2.toNat A2 with hs3
    have hs3eq : s3 = s.set r1.toNat A2 := by
      rw [hs3, hs1, ← heq, List.set_set]
    have hstep : doPairSwaps r1 r2 ((i1, i2) :: rest) s = doPairSwaps r1 r2 rest s3 := by
      simp only [doPairSwaps, hgA, hgB, hv2, hv1, hj1, hgB2, hj2,
        Option.bind_eq_bind, Option.some_bind]
    have hperm : List.Perm A2 A := set_swap_perm A i1.toNat i2.toNat (0, 0)
      (by omega) (by omega)
    have hs3len : s3.length = s.length := by rw [hs3eq, List.length_set]
    have hs3r1 : s3.getD r1.toNat [] = A2 := by
      rw [hs3eq, list_getD_set_eq (by omega)]
    have hA2len : A2.length = A.length := by
      rw [hA2, hA1, List.length_set, List.length_set]
    have hrest := doPairSwaps_same_spec h0r1 h0r2 heq rest s3 (by omega) ?hbrest
    case hbrest =>
      intro p hp
      obtain ⟨hp1, hp2, hp3, hp4⟩ := hb p (List.mem_cons_of_mem _ hp)
      rw [hs3r1, hA2len]
      exact ⟨hp1, hp2, hp3, hp4⟩
    obtain ⟨s2, hrun, hlen, hother, hpm⟩ := hrest
    refine ⟨s2, by rw [hstep]; exact hrun, by rw [hlen, hs3len], ?_, ?_⟩
    · intro q hq
      rw [hother q hq, hs3eq, list_getD_set_ne (fun hc => hq hc.symm)]
    · rw [hs3r1] at hpm
      exact hpm.trans hperm

theorem mem_realIds {t : Int} {m : TMatch} :
    t ∈ realIds m ↔ (t = m.1 ∨ t = m.2) ∧ t ≠ -1 := by
  unfold realIds
  rw [List.mem_filter]
  simp

theorem collectSwapTeams_ok {R1 R2 : SRound} :
    ∀ (pairs : List (Int × Int)) (acc out : List Int × List Int),
      (∀ p ∈ pairs, 0 ≤ p.1 ∧ 0 ≤ p.2) →
      collectSwapTeams R1 R2 pairs acc = some (some out) →
      (∀ p ∈ pairs, p.1 < (R1.length : Int) ∧ p.2 < (R2.length : Int)) ∧
      (∀ p ∈ pairs,
        ((R1.getD p.1.toNat (0, 0)).1 ∈ out.1 ∧ (R1.getD p.1.toNat (0, 0)).2 ∈ out.1) ∧
        ((R2.getD p.2.toNat (0, 0)).1 ∈ out.2 ∧ (R2.getD p.2.toNat (0, 0)).2 ∈ out.2)) ∧
      (∀ t ∈ acc.1, t ∈ out.1) ∧ (∀ t ∈ acc.2, t ∈ out.2)
  | [], acc, out => by
    intro hnn hc
    simp only [collectSwapTeams, Option.some_inj] at hc
    subst hc
    exact ⟨by simp, by simp, fun t ht => ht, fun t ht => ht⟩
  | (i1, i2) :: rest, acc, out => by
    intro hnn hc
    obtain ⟨h1, h2⟩ := hnn (i1, i2) (List.mem_cons_self _ _)
    simp only [collectSwapTeams] at hc
    split_ifs at hc with hoob
    · simp at hc
    push_neg at hoob
    have hg1 : pyGet R1 i1 = some (R1.getD i1.toNat (0, 0)) :=
      pyGet_eq_getD h1 hoob.1 _
    have hg2 : pyGet R2 i2 = some (R2.getD i2.toNat (0, 0)) :=
      pyGet_eq_getD h2 hoob.2 _
    rw [hg1, hg2] at hc
    simp only [Option.bind_eq_bind, Option.some_bind] at hc
    have ih := collectSwapTeams_ok rest _ out
      (fun p hp => hnn p (List.mem_cons_of_mem _ hp)) hc
    refine ⟨?_, ?_, ?_, ?_⟩
    · intro p hp
      rcases List.mem_cons.mp hp with rfl | hp2
      · exact ⟨hoob.1, hoob.2⟩
      · exact ih.1 p hp2
    · intro p hp
      rcases List.mem_cons.mp hp with rfl | hp2
      · constructor
        · constructor
          · exact ih.2.2.1 _ (by simp)
          · exact ih.2.2.1 _ (by simp)
        · constructor
          · exact ih.2.2.2 _ (by simp)
          · exact ih.2.2.2 _ (by simp)
      · exact ih.2.1 p hp2
    · intro t ht
      exact ih.2.2.1 t (by simp [ht])
    · intro t ht
      exact ih.2.2.2 t (by simp [ht])

theorem collectSwapTeams_oob {R1 R2 : SRound} :
    ∀ (pairs : List (Int × Int)) (acc : List Int × List Int),
      (∀ p ∈ pairs, 0 ≤ p.1 ∧ 0 ≤ p.2) →
      (∃ p ∈ pairs, (R1.length : Int) ≤ p.1 ∨ (R2.length : Int) ≤ p.2) →
      collectSwapTeams R1 R2 pairs acc = some none
  | [], acc => by
    intro _ h
    simp at h
  | (i1, i2) :: rest, acc => by
    intro hnn hex
    obtain ⟨h1, h2⟩ := hnn (i1, i2) (List.mem_cons_self _ _)
    simp only [collectSwapTeams]
    split_ifs with hoob
    · rfl
    push_neg at hoob
    have hg1 : pyGet R1 i1 = some (R1.getD i1.toNat (0, 0)) :=
      pyGet_eq_getD h1 hoob.1 _
    have hg2 : pyGet R2 i2 = some (R2.getD i2.toNat (0, 0)) :=
      pyGet_eq_getD h2 hoob.2 _
    rw [hg1, hg2]
    simp only [Option.bind_eq_bind, Option.some_bind]
    apply collectSwapTeams_oob rest _ (fun p hp => hnn p (List.mem_cons_of_mem _ hp))
    obtain ⟨p, hp, hor⟩ := hex
    rcases List.mem_cons.mp hp with rfl | hp2
    · exact absurd hor (by push_neg; exact ⟨hoob.1, hoob.2⟩)
    · exact ⟨p, hp2, hor⟩

theorem move_swap_pairings_preserves_nodup
    {s s2 : Schedule} {r1 r2 : Int} {pairs : List (Int × Int)}
    (hnd : noDupRealSchedule s)
    (hnn : ∀ p ∈ pairs, 0 ≤ p.1 ∧ 0 ≤ p.2)
    (hfn : (pairs.map Prod.fst).Nodup) (hsn : (pairs.map Prod.snd).Nodup)
    (hrun : move_swap_pairings s r1 r2 pairs = some (s2, true)) :
    noDupRealSchedule s2 := by
  unfold move_swap_pairings at hrun
  split_ifs at hrun with hr
  · simp only [Option.pure_def, Option.some_inj, Prod.mk.injEq] at hrun
    exact absurd hrun.2 (by simp)
  push_neg at hr
  obtain ⟨hr1n, hr2n, hr1l, hr2l⟩ := hr
  set A := s.getD r1.toNat [] with hAdef
  set B := s.getD r2.toNat [] with hBdef
  simp only [Option.bind_eq_bind, Option.bind_eq_some] at hrun
  obtain ⟨o, hc, hrun⟩ := hrun
  split at hrun
  · simp only [Option.pure_def, Option.some_inj, Prod.mk.injEq] at hrun
    exact absurd hrun.2 (by simp)
  · rename_i acc
    split_ifs at hrun with hconf
    · simp only [Option.pure_def, Option.some_inj, Prod.mk.injEq] at hrun
      exact absurd hrun.2 (by simp)
    · simp only [Option.bind_eq_bind, Option.bind_eq_some] at hrun
      obtain ⟨sF, hdo, hpure⟩ := hrun
      simp only [Option.pure_def, Option.some_inj, Prod.mk.injEq] at hpure
      obtain ⟨hsF, -⟩ := hpure
      subst hsF
      push_neg at hconf
      obtain ⟨hconf1, hconf2⟩ := hconf
      have hts1 : ∀ t ∈ acc.1.filter (fun t => decide (t ≠ -1)),
          t ∉ (roundTeamsNotIn B (pairs.map Prod.snd)).filter (fun t => decide (t ≠ -1)) := by
        intro t ht hmem
        apply hconf1
        rw [List.any_eq_true]
        exact ⟨t, ht, by simpa using hmem⟩
      have hts2 : ∀ t ∈ acc.2.filter (fun t => decide (t ≠ -1)),
          t ∉ (roundTeamsNotIn A (pairs.map Prod.fst)).filter (fun t => decide (t ≠ -1)) := by
        intro t ht hmem
        apply hconf2
        rw [List.any_eq_true]
        exact ⟨t, ht, by simpa using hmem⟩
      have hok := collectSwapTeams_ok pairs ([], []) acc hnn hc
      have hb1 : ∀ p ∈ pairs, p.1 < (A.length : Int) := fun p hp => (hok.1 p hp).1
      have hb2 : ∀ p ∈ pairs, p.2 < (B.length : Int) := fun p hp => (hok.1 p hp).2
      have hr1lt : r1.toNat < s.length := by omega
      have hr2lt : r2.toNat < s.length := by omega
      have hAmem : A ∈ s := mem_getD_of_lt hr1lt
      have hBmem : B ∈ s := mem_getD_of_lt hr2lt
      by_cases hrr : r1.toNat = r2.toNat
      · -- same round: the swap loop permutes entries of one round
        have hBA : B = A := by rw [hBdef, hAdef, hrr]
        have hspec := doPairSwaps_same_spec hr1n hr2n hrr pairs s hr1lt ?hbs
        case hbs =>
          intro p hp
          refine ⟨(hnn p hp).1, hb1 p hp, (hnn p hp).2, ?_⟩
          rw [← hAdef] ; rw [← hBA]
          exact hb2 p hp
        obtain ⟨s2x, hrunx, hlenx, hotherx, hpermx⟩ := hspec
        rw [hdo] at hrunx
        simp only [Option.some_inj] at hrunx
        subst hrunx
        intro rnd hrnd
        obtain ⟨q, hq, hqe⟩ := List.mem_iff_getElem.mp hrnd
        have hrndq : sF.getD q [] = rnd := by rw [getD_eq_elem hq, hqe]
        by_cases hq1 : q = r1.toNat
        · subst hq1
          rw [← hrndq]
          exact noDupReal_of_perm hpermx (hnd A hAmem)
        · rw [← hrndq, hotherx q hq1]
          exact hnd _ (mem_getD_of_lt (by omega))
      · -- distinct rounds
        have hspec := doPairSwaps_spec hr1n hr2n pairs s hr1lt hr2lt hrr ?hbs hfn hsn
        case hbs =>
          intro p hp
          exact ⟨(hnn p hp).1, hb1 p hp, (hnn p hp).2, hb2 p hp⟩
        obtain ⟨s2x, hrunx, hlenx, hotherx, hd1, hd2⟩ := hspec
        rw [hdo] at hrunx
        simp only [Option.some_inj] at hrunx
        subst hrunx
        -- Nodup facts about the mapped index lists
        have hmap1 : (pairs.map fun p => (p.1.toNat, p.2.toNat)).map Prod.fst =
            (pairs.map Prod.fst).map Int.toNat := by
          simp [List.map_map]
        have hmap2 : (pairs.map fun p => (p.1.toNat, p.2.toNat)).map Prod.snd =
            (pairs.map Prod.snd).map Int.toNat := by
          simp [List.map_map]
        have hmap3 : (pairs.map fun p => (p.2.toNat, p.1.toNat)).map Prod.fst =
            (pairs.map Prod.snd).map Int.toNat := by
          simp [List.map_map]
        have hmap4 : (pairs.map fun p => (p.2.toNat, p.1.toNat)).map Prod.snd =
            (pairs.map Prod.fst).map Int.toNat := by
          simp [List.map_map]
        have hfnN : ((pairs.map Prod.fst).map Int.toNat).Nodup := by
          apply hfn.map_on
          intro x hx y hy hxy
          obtain ⟨px, hpx, hpxe⟩ := List.mem_map.mp hx
          obtain ⟨py, hpy, hpye⟩ := List.mem_map.mp hy
          have h1 := (hnn px hpx).1
          have h2 := (hnn py hpy).1
          omega
        have hsnN : ((pairs.map Prod.snd).map Int.toNat).Nodup := by
          apply hsn.map_on
          intro x hx y hy hxy
          obtain ⟨px, hpx, hpxe⟩ := List.mem_map.mp hx
          obtain ⟨py, hpy, hpye⟩ := List.mem_map.mp hy
          have h1 := (hnn px hpx).2
          have h2 := (hnn py hpy).2
          omega
        -- the two rewritten rounds are noDupReal
        have hnodup1 : noDupReal (multiSwap (pairs.map fun p => (p.1.toNat, p.2.toNat)) A B) := by
          apply multiSwap_nodup (hnd A hAmem) (hnd B hBmem)
            (by rw [hmap1]; exact hfnN) (by rw [hmap2]; exact hsnN)
          · intro p hp
            obtain ⟨p0, hp0, rfl⟩ := List.mem_map.mp hp
            have := hb2 p0 hp0
            have := (hnn p0 hp0).2
            omega
          · intro p hp t ht q hql hqn
            obtain ⟨p0, hp0, rfl⟩ := List.mem_map.mp hp
            intro htA
            rw [mem_realIds] at ht htA
            have htacc : t ∈ acc.2 := by
              rcases ht.1 with h | h
              · rw [h]; exact ((hok.2.1 p0 hp0).2).1
              · rw [h]; exact ((hok.2.1 p0 hp0).2).2
            apply hts2 t (List.mem_filter.mpr ⟨htacc, by simpa using ht.2⟩)
            apply List.mem_filter.mpr
            refine ⟨?_, by simpa using htA.2⟩
            rw [mem_roundTeamsNotIn]
            refine ⟨q, hql, ?_, by tauto⟩
            intro hcq
            obtain ⟨p1, hp1, hp1e⟩ := List.mem_map.mp hcq
            apply hqn
            rw [hmap1]
            refine List.mem_map.mpr ⟨p1.1, List.mem_map.mpr ⟨p1, hp1, rfl⟩, ?_⟩
            omega
        have hnodup2 : noDupReal (multiSwap (pairs.map fun p => (p.2.toNat, p.1.toNat)) B A) := by
          apply multiSwap_nodup (hnd B hBmem) (hnd A hAmem)
            (by rw [hmap3]; exact hsnN) (by rw [hmap4]; exact hfnN)
          · intro p hp
            obtain ⟨p0, hp0, rfl⟩ := List.mem_map.mp hp
            have := hb1 p0 hp0
            have := (hnn p0 hp0).1
            omega
          · intro p hp t ht q hql hqn
            obtain ⟨p0, hp0, rfl⟩ := List.mem_map.mp hp
            intro htB
            rw [mem_realIds] at ht htB
            have htacc : t ∈ acc.1 := by
              rcases ht.1 with h | h
              · rw [h]; exact ((hok.2.1 p0 hp0).1).1
              · rw [h]; exact ((hok.2.1 p0 hp0).1).2
            apply hts1 t (List.mem_filter.mpr ⟨htacc, by simpa using ht.2⟩)
            apply List.mem_filter.mpr
            refine ⟨?_, by simpa using htB.2⟩
            rw [mem_roundTeamsNotIn]
            refine ⟨q, hql, ?_, by tauto⟩
            intro hcq
            obtain ⟨p1, hp1, hp1e⟩ := List.mem_map.mp hcq
            apply hqn
            rw [hmap3]
            refine List.mem_map.mpr ⟨p1.2, List.mem_map.mpr ⟨p1, hp1, rfl⟩, ?_⟩
            omega
        intro rnd hrnd
        obtain ⟨q, hq, hqe⟩ := List.mem_iff_getElem.mp hrnd
        have hrndq : sF.getD q [] = rnd := by rw [getD_eq_elem hq, hqe]
        by_cases hq1 : q = r1.toNat
        · subst hq1
          rw [← hrndq, hd1]
          exact hnodup1
        · by_cases hq2 : q = r2.toNat
          · subst hq2
            rw [← hrndq, hd2]
            exact hnodup2
          · rw [← hrndq, hotherx q hq1 hq2]
            exact hnd _ (mem_getD_of_lt (by omega))

theorem realIds_flip_perm (x y : Int) :
    List.Perm (realIds (y, x)) (realIds (x, y)) := by
  unfold realIds
  by_cases hx : x = -1 <;> by_cases hy : y = -1 <;>
    simp [List.filter, hx, hy]
  exact List.Perm.swap x y []

theorem roundRealIds_append (xs ys : SRound) :
    roundRealIds (xs ++ ys) = roundRealIds xs ++ roundRealIds ys := by
  unfold roundRealIds
  rw [List.flatMap_append]

theorem roundRealIds_cons (m : TMatch) (ys : SRound) :
    roundRealIds (m :: ys) = realIds m ++ roundRealIds ys := by
  unfold roundRealIds
  rw [List.flatMap_cons]

theorem move_swap_rounds_preserves_nodup {s s2 : Schedule} {r1 r2 : Int}
    (hnd : noDupRealSchedule s) (hrun : move_swap_rounds s r1 r2 = (s2, true)) :
    noDupRealSchedule s2 := by
  unfold move_swap_rounds at hrun
  split_ifs at hrun with hr
  · simp at hrun
  · simp only [Prod.mk.injEq] at hrun
    obtain ⟨hs2, -⟩ := hrun
    subst hs2
    push_neg at hr
    intro rnd hrnd
    rcases List.mem_or_eq_of_mem_set hrnd with h | h
    · rcases List.mem_or_eq_of_mem_set h with h2 | h2
      · exact hnd _ h2
      · subst h2; exact hnd _ (mem_getD_of_lt (by omega))
    · subst h; exact hnd _ (mem_getD_of_lt (by omega))

theorem move_flip_venue_preserves_nodup {s s2 : Schedule} {r i : Int}
    (hnd : noDupRealSchedule s) (hrun : move_flip_venue s r i = (s2, true)) :
    noDupRealSchedule s2 := by
  unfold move_flip_venue at hrun
  split_ifs at hrun with hr
  · simp at hrun
  · simp only [Prod.mk.injEq] at hrun
    obtain ⟨hs2, -⟩ := hrun
    subst hs2
    push_neg at hr
    obtain ⟨h0, hl, hi0, hil⟩ := hr
    intro rnd hrnd
    unfold setMatch at hrnd
    rcases List.mem_or_eq_of_mem_set hrnd with h | h
    · exact hnd _ h
    · subst h
      set R := s.getD r.toNat [] with hR
      set m := R.getD i.toNat (0, 0) with hm
      have hiN : i.toNat < R.length := by omega
      have hRnd : noDupReal R := hnd _ (mem_getD_of_lt (by omega))
      have hdecomp : R = R.take i.toNat ++ m :: R.drop (i.toNat + 1) := by
        conv_lhs => rw [← set_getD_self R i.toNat (0, 0) hiN]
        exact List.set_eq_take_cons_drop _ hiN
      have hset : R.set i.toNat (m.2, m.1) =
          R.take i.toNat ++ (m.2, m.1) :: R.drop (i.toNat + 1) :=
        List.set_eq_take_cons_drop _ hiN
      have hperm : List.Perm (roundRealIds (R.set i.toNat (m.2, m.1)))
          (roundRealIds R) := by
        rw [hset]
        conv_rhs => rw [hdecomp]
        rw [roundRealIds_append, roundRealIds_append, roundRealIds_cons,
          roundRealIds_cons]
        apply List.Perm.append_left
        apply List.Perm.append_right
        exact realIds_flip_perm m.1 m.2
      unfold noDupReal
      exact (List.Perm.nodup_iff hperm).mpr hRnd

theorem move_swap_matches_preserves_nodup {s s2 : Schedule} {r1 i1 r2 i2 : Int}
    (hnd : noDupRealSchedule s) (hrun : move_swap_matches s r1 i1 r2 i2 = (s2, true)) :
    noDupRealSchedule s2 := by
  unfold move_swap_matches at hrun
  split at hrun
  · simp at hrun
  · rename_i hr
    simp only [] at hrun
    split at hrun
    · simp at hrun
    · rename_i hc
      simp only [Prod.mk.injEq] at hrun
      obtain ⟨hs2, -⟩ := hrun
      subst hs2
      push_neg at hr
      obtain ⟨h1, h2, h3, h4, h5, h6, h7, h8⟩ := hr
      push_neg at hc
      obtain ⟨hc1, hc2⟩ := hc
      set A := s.getD r1.toNat [] with hA
      set B := s.getD r2.toNat [] with hB
      set m1 := A.getD i1.toNat (0, 0) with hm1
      set m2 := B.getD i2.toNat (0, 0) with hm2
      have hi1N : i1.toNat < A.length := by omega
      have hi2N : i2.toNat < B.length := by omega
      have hr1N : r1.toNat < s.length := by omega
      have hr2N : r2.toNat < s.length := by omega
      have hAnd : noDupReal A := hnd _ (mem_getD_of_lt hr1N)
      have hBnd : noDupReal B := hnd _ (mem_getD_of_lt hr2N)
      have hc2m : ∀ t ∈ realIds m2, t ∉ roundTeamsExcept A i1.toNat := by
        intro t ht hmem
        apply hc2
        rw [List.any_eq_true]
        exact ⟨t, ht, by simpa using hmem⟩
      have hc1m : ∀ t ∈ realIds m1, t ∉ roundTeamsExcept B i2.toNat := by
        intro t ht hmem
        apply hc1
        rw [List.any_eq_true]
        exact ⟨t, ht, by simpa using hmem⟩
      by_cases hrr : r1.toNat = r2.toNat
      · -- same round: the two sequential writes are a transposition
        have hBA : B = A := by rw [hB, hA, hrr]
        intro rnd hrnd
        unfold setMatch at hrnd
        rw [← hrr] at hrnd
        rw [list_getD_set_eq (l := s) (x := A.set i1.toNat m2) (by omega),
          List.set_set] at hrnd
        rcases List.mem_or_eq_of_mem_set hrnd with h | h
        · exact hnd _ h
        · subst h
          have : List.Perm ((A.set i1.toNat m2).set i2.toNat m1) A := by
            rw [hm1, hm2, hBA]
            exact set_swap_perm A i1.toNat i2.toNat (0, 0) hi1N
              (by rw [hBA] at hi2N; exact hi2N)
          exact noDupReal_of_perm this hAnd
      · -- distinct rounds: two independent single-match replacements
        intro rnd hrnd
        unfold setMatch at hrnd
        rw [list_getD_set_ne hrr] at hrnd
        rcases List.mem_or_eq_of_mem_set hrnd with h | h
        · rcases List.mem_or_eq_of_mem_set h with h2 | h2
          · exact hnd _ h2
          · subst h2
            have heq : A.set i1.toNat m2 = multiSwap [(i1.toNat, i2.toNat)] A B := by
              simp [multiSwap, hm2]
            rw [heq]
            apply multiSwap_nodup hAnd hBnd (by simp) (by simp)
              (by rintro p hp; simp only [List.mem_singleton] at hp; subst hp; exact hi2N)
            intro p hp t ht q hql hqn
            simp only [List.mem_singleton] at hp
            subst hp
            intro htA
            apply hc2m t (by rwa [← hm2] at ht)
            rw [mem_roundTeamsExcept]
            rw [mem_realIds] at htA
            refine ⟨q, hql, by simpa using hqn, by tauto⟩
        · subst h
          have heq : B.set i2.toNat m1 = multiSwap [(i2.toNat, i1.toNat)] B A := by
            simp [multiSwap, hm1]
          rw [heq]
          apply multiSwap_nodup hBnd hAnd (by simp) (by simp)
            (by rintro p hp; simp only [List.mem_singleton] at hp; subst hp; exact hi1N)
          intro p hp t ht q hql hqn
          simp only [List.mem_singleton] at hp
          subst hp
          intro htB
          apply hc1m t (by rwa [← hm1] at ht)
          rw [mem_roundTeamsExcept]
          rw [mem_realIds] at htB
          refine ⟨q, hql, by simpa using hqn, by tauto⟩

theorem move_swap_pairings_collect_none {s : Schedule} {r1 r2 : Int}
    {pairs : List (Int × Int)}
    (hr : ¬(r1 < 0 ∨ r2 < 0 ∨ (s.length : Int) ≤ r1 ∨ (s.length : Int) ≤ r2))
    (hc : collectSwapTeams (s.getD r1.toNat []) (s.getD r2.toNat []) pairs ([], []) =
      some none) :
    move_swap_pairings s r1 r2 pairs = some (s, false) := by
  unfold move_swap_pairings
  rw [if_neg hr]
  simp only [hc, Option.bind_eq_bind, Option.some_bind, Option.pure_def]


/-! ## Claim C3 -/

/-- C3 counterexample: `move_swap_pairings` with a repeated `r1`-index in
`pairs_to_swap` reports feasibility `true` yet breaks the intra-round
no-duplicate invariant: team `0` ends up twice in round 1 of the result. -/
theorem move_swap_pairings_duplicate_pair_breaks_invariant :
    move_swap_pairings [[(0, 1)], [(0, 2), (3, 4)]] 0 1 [(0, 0), (0, 1)] =
      some ([[(3, 4)], [(0, 1), (0, 2)]], true) ∧
    noDupRealSchedule [[(0, 1)], [(0, 2), (3, 4)]] ∧
    ¬ noDupRealSchedule [[(3, 4)], [(0, 1), (0, 2)]] :=
  ⟨by decide, by decide, by decide⟩

/-- C3 (amended): `move_swap_rounds`, `move_swap_matches` and
`move_flip_venue` preserve the no-duplicate-per-round invariant whenever they
report feasibility `true`; `move_swap_pairings` preserves it provided the
`r1`-indices of `pairs_to_swap` are nonnegative and pairwise distinct and
likewise the `r2`-indices (the counterexample shows the claim fails without
that proviso). -/
theorem move_primitives_preserve_round_nodup :
    (∀ (s s2 : Schedule) (r1 r2 : Int), noDupRealSchedule s →
      move_swap_rounds s r1 r2 = (s2, true) → noDupRealSchedule s2) ∧
    (∀ (s s2 : Schedule) (r1 i1 r2 i2 : Int), noDupRealSchedule s →
      move_swap_matches s r1 i1 r2 i2 = (s2, true) → noDupRealSchedule s2) ∧
    (∀ (s s2 : Schedule) (r i : Int), noDupRealSchedule s →
      move_flip_venue s r i = (s2, true) → noDupRealSchedule s2) ∧
    (∀ (s s2 : Schedule) (r1 r2 : Int) (pairs : List (Int × Int)),
      noDupRealSchedule s →
      (∀ p ∈ pairs, 0 ≤ p.1 ∧ 0 ≤ p.2) →
      (pairs.map Prod.fst).Nodup → (pairs.map Prod.snd).Nodup →
      move_swap_pairings s r1 r2 pairs = some (s2, true) → noDupRealSchedule s2) :=
  ⟨fun _ _ _ _ h hr => move_swap_rounds_preserves_nodup h hr,
   fun _ _ _ _ _ _ h hr => move_swap_matches_preserves_nodup h hr,
   fun _ _ _ _ h hr => move_flip_venue_preserves_nodup h hr,
   fun _ _ _ _ _ h hn hf hs hr => move_swap_pairings_preserves_nodup h hn hf hs hr⟩

/-- Witness for C3 at a concrete instance. -/
theorem move_primitives_preserve_round_nodup_witness :
    noDupRealSchedule [[(2, 3)], [(0, 1)]] :=
  move_primitives_preserve_round_nodup.1 [[(0, 1)], [(2, 3)]] [[(2, 3)], [(0, 1)]] 0 1
    (by decide) (by decide)

/-! ## Claim C8 -/

/-- C8 counterexample: a `pairs_to_swap` index below `-len` makes
`move_swap_pairings` raise `IndexError` instead of returning feasibility
`false`, and an index of `-1` is accepted as a Python back-reference and
returns feasibility `true`. -/
theorem move_swap_pairings_negative_index_not_reported :
    move_swap_pairings [[(0, 1)], [(2, 3)]] 0 1 [(-2, 0)] = none ∧
    move_swap_pairings [[(0, 1)], [(2, 3)]] 0 1 [(-1, 0)] =
      some ([[(2, 3)], [(0, 1)]], true) :=
  ⟨by decide, by decide⟩

/-- C8 (amended): out-of-range indices yield feasibility `false` for
`move_swap_rounds`, `move_swap_matches` and `move_flip_venue`; for
`move_swap_pairings` the round indices and any nonnegative pair index at or
beyond its round length yield feasibility `false`, while negative pair
indices are Python back-references (in `[-len, -1]`) or raise `IndexError`
(below `-len`), as the counterexample shows. -/
theorem move_primitives_out_of_range_infeasible :
    (∀ (s : Schedule) (r1 r2 : Int),
      (r1 < 0 ∨ r2 < 0 ∨ (s.length : Int) ≤ r1 ∨ (s.length : Int) ≤ r2) →
      move_swap_rounds s r1 r2 = (s, false)) ∧
    (∀ (s : Schedule) (r1 i1 r2 i2 : Int),
      (r1 < 0 ∨ r2 < 0 ∨ (s.length : Int) ≤ r1 ∨ (s.length : Int) ≤ r2 ∨
        i1 < 0 ∨ i2 < 0 ∨ ((s.getD r1.toNat []).length : Int) ≤ i1 ∨
        ((s.getD r2.toNat []).length : Int) ≤ i2) →
      move_swap_matches s r1 i1 r2 i2 = (s, false)) ∧
    (∀ (s : Schedule) (r i : Int),
      (r < 0 ∨ (s.length : Int) ≤ r ∨ i < 0 ∨
        ((s.getD r.toNat []).length : Int) ≤ i) →
      move_flip_venue s r i = (s, false)) ∧
    (∀ (s : Schedule) (r1 r2 : Int) (pairs : List (Int × Int)),
      (r1 < 0 ∨ r2 < 0 ∨ (s.length : Int) ≤ r1 ∨ (s.length : Int) ≤ r2) →
      move_swap_pairings s r1 r2 pairs = some (s, false)) ∧
    (∀ (s : Schedule) (r1 r2 : Int) (pairs : List (Int × Int)),
      (∀ p ∈ pairs, 0 ≤ p.1 ∧ 0 ≤ p.2) →
      (∃ p ∈ pairs, ((s.getD r1.toNat []).length : Int) ≤ p.1 ∨
        ((s.getD r2.toNat []).length : Int) ≤ p.2) →
      move_swap_pairings s r1 r2 pairs = some (s, false)) := by
  refine ⟨?_, ?_, ?_, ?_, ?_⟩
  · intro s r1 r2 h
    unfold move_swap_rounds
    rw [if_pos h]
  · intro s r1 i1 r2 i2 h
    unfold move_swap_matches
    rw [if_pos h]
  · intro s r i h
    unfold move_flip_venue
    rw [if_pos h]
  · intro s r1 r2 pairs h
    unfold move_swap_pairings
    rw [if_pos h]
  · intro s r1 r2 pairs hnn hex
    by_cases hr : r1 < 0 ∨ r2 < 0 ∨ (s.length : Int) ≤ r1 ∨ (s.length : Int) ≤ r2
    · unfold move_swap_pairings
      rw [if_pos hr]
    · exact move_swap_pairings_collect_none hr (collectSwapTeams_oob pairs ([], []) hnn hex)

/-- Witness for C8 at concrete instances. -/
theorem move_primitives_out_of_range_infeasible_witness :
    move_swap_rounds [[(0, 1)]] (-1) 0 = ([[(0, 1)]], false) ∧
    move_swap_pairings [[(0, 1)]] 0 0 [(5, 0)] = some ([[(0, 1)]], false) :=
  ⟨move_primitives_out_of_range_infeasible.1 [[(0, 1)]] (-1) 0 (by decide),
   move_primitives_out_of_range_infeasible.2.2.2.2 [[(0, 1)]] 0 0 [(5, 0)]
     (by decide) (by decide)⟩

theorem tailLen_odd {n : Nat} (hn : 2 ≤ n) : tailLen n % 2 = 1 := by
  unfold tailLen; split <;> omega

theorem tailLen_pos {n : Nat} (hn : 2 ≤ n) : 1 ≤ tailLen n := by
  unfold tailLen; split <;> omega

theorem tailLen_ge {n : Nat} : n - 1 ≤ tailLen n := by
  unfold tailLen; split <;> omega

theorem tailLen_le {n : Nat} : tailLen n ≤ n := by
  unfold tailLen; split <;> omega

theorem initTail_length {n : Nat} (hn : 1 ≤ n) : (initTail n).length = tailLen n := by
  unfold initTail tailLen
  split <;> simp <;> omega

theorem initIds_eq {n : Nat} (hn : 1 ≤ n) : initIds n = 0 :: initTail n := by
  have hr : (List.range n).map Int.ofNat =
      0 :: (List.range (n - 1)).map (fun q => Int.ofNat (q + 1)) := by
    conv_lhs => rw [show n = (n - 1) + 1 from by omega, List.range_succ_eq_map]
    rw [List.map_cons, List.map_map]
    rfl
  unfold initIds initTail
  split
  · rw [hr]; rfl
  · rw [hr]; simp

theorem initIds_length {n : Nat} (hn : 1 ≤ n) : (initIds n).length = tailLen n + 1 := by
  rw [initIds_eq hn]
  simp [initTail_length hn]

theorem initTail_getD {n : Nat} (hn : 1 ≤ n) {q : Nat} (hq : q < tailLen n) :
    (initTail n).getD q 0 = tval n q := by
  have hlen : (initTail n).length = tailLen n := initTail_length hn
  unfold initTail at hlen ⊢
  unfold tval
  by_cases hql : q < n - 1
  · rw [if_pos hql]
    have hlenq : q < ((List.range (n - 1)).map (fun q => Int.ofNat (q + 1))).length := by
      simpa using hql
    rw [getD_eq_elem (by omega), List.getElem_append_left hlenq]
    simp
  · rw [if_neg hql]
    have hodd : n % 2 = 1 := by
      unfold tailLen at hq; split at hq <;> omega
    have hq1 : q = n - 1 := by
      unfold tailLen at hq; rw [if_pos hodd] at hq; omega
    subst hq1
    rw [getD_eq_elem (by omega), List.getElem_append_right (by simpa using le_refl _)]
    simp [hodd]

theorem rotateIds_cons {x : Int} {xs : List Int} (hxs : xs ≠ []) :
    rotateIds (x :: xs) = x :: xs.rotate (xs.length - 1) := by
  unfold rotateIds
  have hlen : (x :: xs).length - 1 = xs.length := by simp
  rw [hlen]
  have h1 : (x :: xs).take 1 = [x] := rfl
  have h2 : (x :: xs).drop xs.length = xs.drop (xs.length - 1) := by
    have : xs.length = (xs.length - 1) + 1 := by
      have := List.length_pos.mpr hxs
      omega
    conv_lhs => rw [this]
    rfl
  have h3 : ((x :: xs).drop 1).dropLast = xs.take (xs.length - 1) := by
    rw [List.drop_one, List.tail_cons, List.dropLast_eq_take]
  rw [h1, h2, h3, List.rotate_eq_drop_append_take (by omega)]
  rfl

theorem rotateIds_iter {x : Int} {xs : List Int} (hxs : xs ≠ []) (r : Nat) :
    rotateIds^[r] (x :: xs) = x :: xs.rotate ((xs.length - 1) * r) := by
  induction r with
  | zero => simp
  | succ r ih =>
    rw [Function.iterate_succ_apply', ih]
    have hne : xs.rotate ((xs.length - 1) * r) ≠ [] := by
      intro hc
      apply hxs
      simpa using congrArg List.length hc
    rw [rotateIds_cons hne, List.length_rotate, List.rotate_rotate]
    have harith : (xs.length - 1) * r + (xs.length - 1) = (xs.length - 1) * (r + 1) := by
      ring
    rw [harith]

theorem rotate_getD {xs : List Int} {k q : Nat} (hq : q < xs.length) :
    (xs.rotate k).getD q 0 = xs.getD ((q + k) % xs.length) 0 := by
  have hql : q < (xs.rotate k).length := by simpa using hq
  have hmod : (q + k) % xs.length < xs.length := Nat.mod_lt _ (by omega)
  rw [getD_eq_elem hql, getD_eq_elem hmod, List.getElem_rotate]

theorem iterIds_getD {n : Nat} (hn : 2 ≤ n) (r : Nat) {p : Nat}
    (hp : p < tailLen n + 1) :
    (rotateIds^[r] (initIds n)).getD p 0 = vAt n r p := by
  have hL : 1 ≤ tailLen n := tailLen_pos hn
  have htne : initTail n ≠ [] := by
    intro hc
    have := initTail_length (n := n) (by omega)
    rw [hc] at this
    simp at this
    omega
  rw [initIds_eq (by omega), rotateIds_iter htne r]
  unfold vAt
  cases p with
  | zero => rfl
  | succ q =>
    rw [if_neg (by omega)]
    have hlen : (initTail n).length = tailLen n := initTail_length (by omega)
    have hq : q < (initTail n).length := by omega
    simp only [List.getD_cons_succ]
    rw [rotate_getD hq, hlen]
    rw [initTail_getD (show 1 ≤ n by omega) (Nat.mod_lt _ (by omega))]
    have harg : q + 1 - 1 = q := by omega
    rw [harg]

theorem iterIds_length {n : Nat} (hn : 2 ≤ n) (r : Nat) :
    (rotateIds^[r] (initIds n)).length = tailLen n + 1 := by
  have htne : initTail n ≠ [] := by
    intro hc
    have := initTail_length (n := n) (by omega)
    rw [hc] at this
    simp at this
    have := tailLen_pos hn
    omega
  rw [initIds_eq (by omega), rotateIds_iter htne r]
  simp [initTail_length (show 1 ≤ n by omega)]

theorem rrRounds_eq_map : ∀ (k : Nat) (ids : List Int) (r : Nat),
    rrRounds k ids r = (List.range k).map (fun j => mkRound (rotateIds^[j] ids) (r + j))
  | 0, ids, r => by simp [rrRounds]
  | k + 1, ids, r => by
    rw [show rrRounds (k + 1) ids r = mkRound ids r :: rrRounds k (rotateIds ids) (r + 1)
      from rfl]
    rw [rrRounds_eq_map k (rotateIds ids) (r + 1), List.range_succ_eq_map,
      List.map_cons, List.map_map]
    congr 1
    refine List.map_congr_left fun j hj => ?_
    simp only [Function.comp_apply, Function.iterate_succ_apply]
    congr 1
    omega

theorem round_robin_eq {n : Nat} (hn : 2 ≤ n) :
    round_robin_pairs n =
      (List.range (tailLen n)).map (fun r => mkRound (rotateIds^[r] (initIds n)) r) := by
  unfold round_robin_pairs
  rw [rrRounds_eq_map, initIds_length (by omega)]
  simp

theorem mkRound_eq {n : Nat} (hn : 2 ≤ n) (r : Nat) :
    mkRound (rotateIds^[r] (initIds n)) r =
      (List.range ((tailLen n + 1) / 2)).filterMap (emit n r) := by
  unfold mkRound
  rw [iterIds_length hn r]
  apply List.filterMap_congr
  intro i hi
  rw [List.mem_range] at hi
  have hL := tailLen_pos hn
  have h1 : i < tailLen n + 1 := by omega
  have h2 : tailLen n + 1 - 1 - i = tailLen n - i := by omega
  rw [h2, iterIds_getD hn r h1, iterIds_getD hn r (by omega)]
  rfl

theorem sub_one_mul_helper {L r : Nat} (hL : 1 ≤ L) : (L - 1) * r + r = L * r := by
  have h5 : (L - 1) * r = L * r - r := by rw [Nat.sub_mul, one_mul]
  have h6 : r ≤ L * r := Nat.le_mul_of_pos_left r hL
  omega

theorem vAt_zero (n r : Nat) : vAt n r 0 = 0 := rfl

theorem vAt_succ_pos {n : Nat} (hn : 2 ≤ n) (r : Nat) {t : Nat} (h1 : 1 ≤ t)
    (h2 : t ≤ n - 1) :
    vAt n r (1 + ((t - 1 + r) % tailLen n)) = Int.ofNat t := by
  have hL := tailLen_pos hn
  have hLge := tailLen_ge (n := n)
  unfold vAt
  rw [if_neg (by omega)]
  have h3 : 1 + ((t - 1 + r) % tailLen n) - 1 = (t - 1 + r) % tailLen n := by omega
  rw [h3, Nat.mod_add_mod]
  have h4 : t - 1 + r + (tailLen n - 1) * r = t - 1 + tailLen n * r := by
    have := sub_one_mul_helper (L := tailLen n) (r := r) hL
    omega
  rw [h4, Nat.add_mul_mod_self_left, Nat.mod_eq_of_lt (by omega)]
  unfold tval
  rw [if_pos (by omega)]
  congr 1
  omega

theorem vAt_byePos {n : Nat} (hn : 2 ≤ n) (hodd : n % 2 = 1) (r : Nat) :
    vAt n r (byePos n r) = -1 := by
  have hL := tailLen_pos hn
  have hLn : tailLen n = n := by unfold tailLen; rw [if_pos hodd]
  unfold vAt byePos
  rw [if_neg (by omega)]
  have h3 : 1 + ((tailLen n - 1 + r) % tailLen n) - 1 = (tailLen n - 1 + r) % tailLen n := by
    omega
  rw [h3, Nat.mod_add_mod]
  have h4 : tailLen n - 1 + r + (tailLen n - 1) * r = tailLen n - 1 + tailLen n * r := by
    have := sub_one_mul_helper (L := tailLen n) (r := r) hL
    omega
  rw [h4, Nat.add_mul_mod_self_left, Nat.mod_eq_of_lt (by omega)]
  unfold tval
  rw [if_neg (by omega)]

theorem byePos_bounds {n : Nat} (hn : 2 ≤ n) (r : Nat) :
    1 ≤ byePos n r ∧ byePos n r ≤ tailLen n := by
  have hL := tailLen_pos hn
  unfold byePos
  have := Nat.mod_lt (tailLen n - 1 + r) (show 0 < tailLen n by omega)
  omega

theorem tval_inj {n : Nat} {q q2 : Nat} (hq : q < tailLen n) (hq2 : q2 < tailLen n)
    (he : tval n q = tval n q2) : q = q2 := by
  have hle := tailLen_le (n := n)
  unfold tval at he
  simp only [Int.ofNat_eq_natCast] at he
  split_ifs at he <;> omega

theorem vAt_inj {n : Nat} (hn : 2 ≤ n) (r : Nat) {p p2 : Nat} (hp : p ≤ tailLen n)
    (hp2 : p2 ≤ tailLen n) (he : vAt n r p = vAt n r p2) : p = p2 := by
  have hL := tailLen_pos hn
  unfold vAt at he
  split_ifs at he with ha hb hb
  · omega
  · exfalso
    unfold tval at he
    simp only [Int.ofNat_eq_natCast] at he
    split_ifs at he <;> omega
  · exfalso
    unfold tval at he
    simp only [Int.ofNat_eq_natCast] at he
    split_ifs at he <;> omega
  · have hq : (p - 1 + (tailLen n - 1) * r) % tailLen n =
        (p2 - 1 + (tailLen n - 1) * r) % tailLen n :=
      tval_inj (Nat.mod_lt _ (by omega)) (Nat.mod_lt _ (by omega)) he
    have hcan : (p - 1) % tailLen n = (p2 - 1) % tailLen n := by
      have h1 := Nat.ModEq.add_right_cancel' ((tailLen n - 1) * r) hq
      exact h1
    rw [Nat.mod_eq_of_lt (by omega), Nat.mod_eq_of_lt (by omega)] at hcan
    omega

theorem vAt_cases {n : Nat} (hn : 2 ≤ n) (r p : Nat) :
    vAt n r p = -1 ∨ ∃ t : Nat, t < n ∧ vAt n r p = Int.ofNat t := by
  have hL := tailLen_pos hn
  have hle := tailLen_le (n := n)
  unfold vAt
  split_ifs with ha
  · exact Or.inr ⟨0, by omega, rfl⟩
  · unfold tval
    split_ifs with hb
    · exact Or.inr ⟨_ + 1, by omega, rfl⟩
    · exact Or.inl rfl

theorem length_filterMap_eq_countP {α β : Type} (f : α → Option β) (l : List α) :
    (l.filterMap f).length = l.countP (fun x => (f x).isSome) := by
  induction l with
  | nil => rfl
  | cons x xs ih =>
    rw [List.filterMap_cons, List.countP_cons]
    cases hfx : f x <;> simp [hfx, ih]

theorem vAt_ne_neg1_even {n : Nat} (hn : 2 ≤ n) (heven : n % 2 = 0) (r p : Nat) :
    vAt n r p ≠ -1 := by
  have hL := tailLen_pos hn
  have hLn : tailLen n = n - 1 := by unfold tailLen; rw [if_neg (by omega)]
  unfold vAt
  split_ifs with ha
  · decide
  · unfold tval
    rw [if_pos]
    · simp only [Int.ofNat_eq_natCast]
      omega
    · have := Nat.mod_lt (p - 1 + (tailLen n - 1) * r) (show 0 < tailLen n by omega)
      omega

theorem vAt_eq_neg1_iff {n : Nat} (hn : 2 ≤ n) (hodd : n % 2 = 1) (r p : Nat)
    (hp : p ≤ tailLen n) : vAt n r p = -1 ↔ p = byePos n r := by
  constructor
  · intro h
    have hb := byePos_bounds hn (n := n) r
    exact vAt_inj hn r hp (by omega) (h.trans (vAt_byePos hn hodd r).symm)
  · intro h
    rw [h]
    exact vAt_byePos hn hodd r


theorem emit_eq_none_iff {n : Nat} (hn : 2 ≤ n) (hodd : n % 2 = 1) (r i : Nat)
    (hi : i < (tailLen n + 1) / 2) : emit n r i = none ↔ i = byeSlot n r := by
  have hL := tailLen_pos hn
  have hLodd := tailLen_odd hn
  have hb := byePos_bounds hn (n := n) r
  have hi2 : i ≤ tailLen n := by omega
  have hi3 : tailLen n - i ≤ tailLen n := by omega
  constructor
  · intro h
    unfold emit at h
    split_ifs at h with hc hc2
    · rcases hc with hc | hc
      · rw [vAt_eq_neg1_iff hn hodd r i hi2] at hc
        unfold byeSlot
        rw [Nat.min_def]
        split_ifs <;> omega
      · rw [vAt_eq_neg1_iff hn hodd r _ hi3] at hc
        unfold byeSlot
        rw [Nat.min_def]
        split_ifs <;> omega
  · intro h
    unfold emit
    rw [if_pos]
    unfold byeSlot at h
    rw [Nat.min_def] at h
    split_ifs at h with hle
    · left
      rw [vAt_eq_neg1_iff hn hodd r i hi2]
      omega
    · right
      rw [vAt_eq_neg1_iff hn hodd r _ hi3]
      omega

theorem byeSlot_lt {n : Nat} (hn : 2 ≤ n) (hodd : n % 2 = 1) (r : Nat) :
    byeSlot n r < (tailLen n + 1) / 2 := by
  have hL := tailLen_pos hn
  have hLodd := tailLen_odd hn
  have hb := byePos_bounds hn (n := n) r
  unfold byeSlot
  rw [Nat.min_def]
  split_ifs <;> omega

theorem round_robin_eq2 {n : Nat} (hn : 2 ≤ n) :
    round_robin_pairs n = (List.range (tailLen n)).map
      (fun r => (List.range ((tailLen n + 1) / 2)).filterMap (emit n r)) := by
  rw [round_robin_eq hn]
  exact List.map_congr_left fun r hr => mkRound_eq hn r

theorem round_robin_length {n : Nat} (hn : 2 ≤ n) :
    (round_robin_pairs n).length = tailLen n := by
  rw [round_robin_eq2 hn, List.length_map, List.length_range]

theorem countP_isSome_add_isNone {α β : Type} (f : α → Option β) (l : List α) :
    l.countP (fun x => (f x).isSome) + l.countP (fun x => (f x).isNone) = l.length := by
  induction l with
  | nil => rfl
  | cons x xs ih =>
    rw [List.countP_cons, List.countP_cons]
    rcases hfx : f x with _ | v <;> simp [hfx] <;> omega

theorem rr_round_length_even {n : Nat} (hn : 2 ≤ n) (heven : n % 2 = 0) :
    ∀ rnd ∈ round_robin_pairs n, rnd.length = n / 2 := by
  intro rnd hmem
  rw [round_robin_eq2 hn, List.mem_map] at hmem
  obtain ⟨r, hr, rfl⟩ := hmem
  rw [length_filterMap_eq_countP, List.countP_eq_length.mpr]
  · rw [List.length_range]
    unfold tailLen
    rw [if_neg (by omega)]
    omega
  · intro i hi
    unfold emit
    rw [if_neg]
    · split_ifs <;> rfl
    · push_neg
      exact ⟨vAt_ne_neg1_even hn heven r i, vAt_ne_neg1_even hn heven r _⟩

theorem rr_round_length_odd {n : Nat} (hn : 2 ≤ n) (hodd : n % 2 = 1) :
    ∀ rnd ∈ round_robin_pairs n, rnd.length = (n - 1) / 2 := by
  have hL := tailLen_pos hn
  have hLn : tailLen n = n := by unfold tailLen; rw [if_pos hodd]
  intro rnd hmem
  rw [round_robin_eq2 hn, List.mem_map] at hmem
  obtain ⟨r, hr, rfl⟩ := hmem
  rw [length_filterMap_eq_countP]
  have hsplit := countP_isSome_add_isNone (fun x => emit n r x) (List.range ((tailLen n + 1) / 2))
  have hnone : (List.range ((tailLen n + 1) / 2)).countP (fun x => (emit n r x).isNone) = 1 := by
    have hcongr : (List.range ((tailLen n + 1) / 2)).countP (fun x => (emit n r x).isNone) =
        (List.range ((tailLen n + 1) / 2)).countP (fun x => x == byeSlot n r) := by
      apply List.countP_congr
      intro a ha
      rw [List.mem_range] at ha
      simp only [Option.isNone_iff_eq_none, beq_iff_eq]
      exact emit_eq_none_iff hn hodd r a ha
    rw [hcongr, ← List.count_eq_countP]
    exact List.count_eq_one_of_mem (List.nodup_range _)
      (by rw [List.mem_range]; exact byeSlot_lt hn hodd r)
  rw [List.length_range] at hsplit
  omega

theorem emit_components {n r i : Nat} {mt : TMatch} (h : emit n r i = some mt) :
    (mt = (vAt n r i, vAt n r (tailLen n - i)) ∨
      mt = (vAt n r (tailLen n - i), vAt n r i)) ∧
    vAt n r i ≠ -1 ∧ vAt n r (tailLen n - i) ≠ -1 := by
  unfold emit at h
  split_ifs at h with hc hc2
  · push_neg at hc
    exact ⟨Or.inl (Option.some_inj.mp h).symm, hc⟩
  · push_neg at hc
    exact ⟨Or.inr (Option.some_inj.mp h).symm, hc⟩

theorem mem_roundIds_rr {n : Nat} (r : Nat) (x : Int) :
    x ∈ roundIds ((List.range ((tailLen n + 1) / 2)).filterMap (emit n r)) ↔
      ∃ i, i < (tailLen n + 1) / 2 ∧ emit n r i ≠ none ∧
        (x = vAt n r i ∨ x = vAt n r (tailLen n - i)) := by
  unfold roundIds
  rw [List.mem_flatMap]
  constructor
  · rintro ⟨mt, hmt, hx⟩
    rw [List.mem_filterMap] at hmt
    obtain ⟨i, hi, hemit⟩ := hmt
    rw [List.mem_range] at hi
    obtain ⟨hcomp, h1, h2⟩ := emit_components hemit
    refine ⟨i, hi, by rw [hemit]; exact fun hcon => Option.noConfusion hcon, ?_⟩
    rcases hcomp with rfl | rfl <;> simp at hx <;> tauto
  · rintro ⟨i, hi, hne, hx⟩
    rcases hemit : emit n r i with _ | mt
    · exact absurd hemit hne
    obtain ⟨hcomp, -, -⟩ := emit_components hemit
    refine ⟨mt, List.mem_filterMap.mpr ⟨i, List.mem_range.mpr hi, hemit⟩, ?_⟩
    rcases hcomp with rfl | rfl <;> simp <;> tauto

theorem slot_pos_cases {L p i : Nat} (hp : p ≤ L) (hi : i = min p (L - p)) :
    p = i ∨ p = L - i := by
  rw [Nat.min_def] at hi
  split_ifs at hi <;> omega

theorem min_slot_lt_half {L p : Nat} (hL : L % 2 = 1) (hp : p ≤ L) :
    min p (L - p) < (L + 1) / 2 := by
  rw [Nat.min_def]
  split_ifs <;> omega


theorem idleVal_real {n : Nat} (hn : 2 ≤ n) (hodd : n % 2 = 1) (r : Nat) :
    ∃ t0 : Nat, t0 < n ∧ idleVal n r = Int.ofNat t0 := by
  have hL := tailLen_pos hn
  have hLodd := tailLen_odd hn
  have hb := byePos_bounds hn (n := n) r
  rcases vAt_cases hn r (tailLen n - byePos n r) with hneg | ⟨t0, ht0, hval⟩
  · rw [vAt_eq_neg1_iff hn hodd r _ (by omega)] at hneg
    omega
  · exact ⟨t0, ht0, hval⟩

theorem idle_absent {n : Nat} (hn : 2 ≤ n) (hodd : n % 2 = 1) (r : Nat) :
    idleVal n r ∉ roundIds ((List.range ((tailLen n + 1) / 2)).filterMap (emit n r)) := by
  have hL := tailLen_pos hn
  have hLodd := tailLen_odd hn
  have hb := byePos_bounds hn (n := n) r
  rw [mem_roundIds_rr]
  rintro ⟨i, hi, hne, hx⟩
  rw [Ne, emit_eq_none_iff hn hodd r i hi] at hne
  have hpos : ∃ p, p ≤ tailLen n ∧ (p = i ∨ p = tailLen n - i) ∧
      idleVal n r = vAt n r p := by
    rcases hx with hx | hx
    · exact ⟨i, by omega, Or.inl rfl, hx⟩
    · exact ⟨tailLen n - i, by omega, Or.inr rfl, hx⟩
  obtain ⟨p, hp, hpi, hval⟩ := hpos
  have hpeq : p = tailLen n - byePos n r :=
    vAt_inj hn r hp (by omega) hval.symm
  apply hne
  unfold byeSlot
  rw [Nat.min_def]
  split_ifs <;> omega

theorem present_of_ne_idle {n : Nat} (hn : 2 ≤ n) (hodd : n % 2 = 1) (r : Nat)
    {t : Nat} (ht : t < n) (hne : Int.ofNat t ≠ idleVal n r) :
    Int.ofNat t ∈ roundIds ((List.range ((tailLen n + 1) / 2)).filterMap (emit n r)) := by
  have hL := tailLen_pos hn
  have hLodd := tailLen_odd hn
  have hLn : tailLen n = n := by unfold tailLen; rw [if_pos hodd]
  have hb := byePos_bounds hn (n := n) r
  have hexists : ∃ p, p ≤ tailLen n ∧ vAt n r p = Int.ofNat t := by
    rcases Nat.eq_zero_or_pos t with rfl | htpos
    · exact ⟨0, by omega, rfl⟩
    · refine ⟨1 + ((t - 1 + r) % tailLen n), ?_, vAt_succ_pos hn r htpos (by omega)⟩
      have := Nat.mod_lt (t - 1 + r) (show 0 < tailLen n by omega)
      omega
  obtain ⟨p, hp, hval⟩ := hexists
  rw [mem_roundIds_rr]
  refine ⟨min p (tailLen n - p), min_slot_lt_half hLodd hp, ?_, ?_⟩
  · rw [Ne, emit_eq_none_iff hn hodd r _ (min_slot_lt_half hLodd hp)]
    intro hslot
    unfold byeSlot at hslot
    have hpcase : p = byePos n r ∨ p = tailLen n - byePos n r := by
      rw [Nat.min_def, Nat.min_def] at hslot
      split_ifs at hslot <;> omega
    rcases hpcase with hpcase | hpcase
    · rw [hpcase, (vAt_eq_neg1_iff hn hodd r _ (by omega)).mpr rfl] at hval
      exact absurd hval.symm (by simp [Int.ofNat_eq_natCast])
    · exact hne (by rw [← hval, hpcase]; rfl)
  · rcases slot_pos_cases hp rfl with hc | hc
    · exact Or.inl (hval.symm.trans (congrArg (vAt n r) hc))
    · exact Or.inr (hval.symm.trans (congrArg (vAt n r) hc))

theorem byePos_zero {n : Nat} (hn : 2 ≤ n) : byePos n 0 = tailLen n := by
  have hL := tailLen_pos hn
  unfold byePos
  rw [Nat.add_zero, Nat.mod_eq_of_lt (by omega)]
  omega

theorem idleVal_zero {n : Nat} (hn : 2 ≤ n) : idleVal n 0 = 0 := by
  unfold idleVal
  rw [byePos_zero hn, Nat.sub_self]
  rfl

theorem byePos_one {n : Nat} (hn : 2 ≤ n) : byePos n 1 = 1 := by
  have hL := tailLen_pos hn
  unfold byePos
  have h1 : tailLen n - 1 + 1 = tailLen n := by omega
  rw [h1, Nat.mod_self]

theorem idleVal_one {n : Nat} (hn3 : 3 ≤ n) (hodd : n % 2 = 1) :
    idleVal n 1 = Int.ofNat (n - 2) := by
  have hLn : tailLen n = n := by unfold tailLen; rw [if_pos hodd]
  unfold idleVal
  rw [byePos_one (by omega)]
  unfold vAt
  rw [if_neg (by omega)]
  have h1 : tailLen n - 1 - 1 + (tailLen n - 1) * 1 = tailLen n + (tailLen n - 3) := by
    rw [mul_one]
    omega
  rw [h1, Nat.add_mod_left, Nat.mod_eq_of_lt (by omega)]
  unfold tval
  rw [if_pos (by omega)]
  congr 1
  omega

theorem rr_getD_round {n : Nat} (hn : 2 ≤ n) {r : Nat} (hr : r < tailLen n) :
    (round_robin_pairs n).getD r [] =
      (List.range ((tailLen n + 1) / 2)).filterMap (emit n r) := by
  rw [round_robin_eq2 hn, List.getD_eq_getElem?_getD, List.getElem?_map,
    List.getElem?_range hr]
  rfl

theorem rr_unique_idle {n : Nat} (hn : 2 ≤ n) (hodd : n % 2 = 1) :
    ∀ rnd ∈ round_robin_pairs n, ∃! t : Nat, t < n ∧ Int.ofNat t ∉ roundIds rnd := by
  intro rnd hmem
  rw [round_robin_eq2 hn, List.mem_map] at hmem
  obtain ⟨r, hr, rfl⟩ := hmem
  obtain ⟨t0, ht0, hval⟩ := idleVal_real hn hodd r
  refine ⟨t0, ⟨ht0, ?_⟩, ?_⟩
  · rw [← hval]
    exact idle_absent hn hodd r
  · rintro t ⟨ht, habs⟩
    by_contra hne
    exact habs (present_of_ne_idle hn hodd r ht
      (by rw [hval]; exact fun hcon => hne (Int.ofNat_inj.mp hcon)))

/-- C5: for every n ≥ 2, `round_robin_pairs` returns n−1 rounds of n/2 matches
when n is even; when n is odd it returns n rounds of (n−1)/2 matches, each round
leaving exactly one team id absent, and the idle team is not the same in every
round (rounds 0 and 1 already idle different teams). -/
theorem round_robin_shape {n : Nat} (hn : 2 ≤ n) :
    (n % 2 = 0 →
      (round_robin_pairs n).length = n - 1 ∧
      ∀ rnd ∈ round_robin_pairs n, rnd.length = n / 2) ∧
    (n % 2 = 1 →
      (round_robin_pairs n).length = n ∧
      (∀ rnd ∈ round_robin_pairs n, rnd.length = (n - 1) / 2) ∧
      (∀ rnd ∈ round_robin_pairs n, ∃! t : Nat, t < n ∧ Int.ofNat t ∉ roundIds rnd) ∧
      ∃ t1 t2 : Nat, t1 < n ∧ t2 < n ∧ t1 ≠ t2 ∧
        Int.ofNat t1 ∉ roundIds ((round_robin_pairs n).getD 0 []) ∧
        Int.ofNat t2 ∉ roundIds ((round_robin_pairs n).getD 1 [])) := by
  constructor
  · intro heven
    refine ⟨?_, rr_round_length_even hn heven⟩
    rw [round_robin_length hn]
    unfold tailLen
    rw [if_neg (by omega)]
  · intro hodd
    have hn3 : 3 ≤ n := by omega
    have hLn : tailLen n = n := by unfold tailLen; rw [if_pos hodd]
    refine ⟨by rw [round_robin_length hn, hLn], rr_round_length_odd hn hodd,
      rr_unique_idle hn hodd, ?_⟩
    refine ⟨0, n - 2, by omega, by omega, by omega, ?_, ?_⟩
    · rw [rr_getD_round hn (by omega)]
      have h := idle_absent hn hodd 0
      rw [idleVal_zero hn] at h
      exact h
    · rw [rr_getD_round hn (by omega)]
      have h := idle_absent hn hodd 1
      rw [idleVal_one hn3 hodd] at h
      exact h

theorem round_robin_shape_witness :
    (round_robin_pairs 5).length = 5 ∧
    ∀ rnd ∈ round_robin_pairs 5, rnd.length = 2 := by
  have h := (round_robin_shape (n := 5) (by decide)).2 (by decide)
  exact ⟨h.1, fun rnd hr => h.2.1 rnd hr⟩


theorem posOf_le {n : Nat} (hn : 2 ≤ n) (r t : Nat) : posOf n r t ≤ tailLen n := by
  have hL := tailLen_pos hn
  unfold posOf
  split_ifs with h
  · omega
  · have := Nat.mod_lt (t - 1 + r) (show 0 < tailLen n by omega)
    omega

theorem vAt_posOf {n : Nat} (hn : 2 ≤ n) (r : Nat) {t : Nat} (ht : t < n) :
    vAt n r (posOf n r t) = Int.ofNat t := by
  unfold posOf
  split_ifs with h
  · rw [h]
    rfl
  · exact vAt_succ_pos hn r (by omega) (by omega)

theorem posOf_eq_of_vAt {n : Nat} (hn : 2 ≤ n) (r : Nat) {t p : Nat} (ht : t < n)
    (hp : p ≤ tailLen n) (h : vAt n r p = Int.ofNat t) : p = posOf n r t :=
  vAt_inj hn r hp (posOf_le hn r t) (h.trans (vAt_posOf hn r ht).symm)

theorem countP_filterMap {α β : Type} (f : α → Option β) (p : β → Bool) (l : List α) :
    (l.filterMap f).countP p = l.countP (fun x => ((f x).map p).getD false) := by
  induction l with
  | nil => rfl
  | cons x xs ih =>
    rw [List.filterMap_cons, List.countP_cons]
    rcases hfx : f x with _ | v
    · simp [hfx, ih]
    · rw [List.countP_cons]
      simp [hfx, ih]

theorem modEq_eq_of_lt {a b n : Nat} (h : a ≡ b [MOD n]) (ha : a < n) (hb : b < n) :
    a = b := by
  have h2 : a % n = b % n := h
  rwa [Nat.mod_eq_of_lt ha, Nat.mod_eq_of_lt hb] at h2

theorem emit_pair_iff {n a b : Nat} (hn : 2 ≤ n) (ha : a < n) (hb : b < n) (r i : Nat)
    (hi : i < (tailLen n + 1) / 2) :
    (((emit n r i).map (fun mt =>
        decide (mt = (Int.ofNat a, Int.ofNat b) ∨
          mt = (Int.ofNat b, Int.ofNat a)))).getD false) = true ↔
      ((i = posOf n r a ∧ tailLen n - i = posOf n r b) ∨
       (i = posOf n r b ∧ tailLen n - i = posOf n r a)) := by
  have hL := tailLen_pos hn
  have hiL : i ≤ tailLen n := by omega
  have hIL : tailLen n - i ≤ tailLen n := by omega
  rcases hemit : emit n r i with _ | mt
  · simp only [Option.map_none', Option.getD_none]
    constructor
    · intro h
      exact absurd h (by simp)
    · rintro (⟨h1, h2⟩ | ⟨h1, h2⟩) <;>
      · unfold emit at hemit
        split_ifs at hemit with hc
        rcases hc with hc | hc
        · first
          | (rw [h1, vAt_posOf hn r ha] at hc; exact absurd hc (by simp [Int.ofNat_eq_natCast]))
          | (rw [h1, vAt_posOf hn r hb] at hc; exact absurd hc (by simp [Int.ofNat_eq_natCast]))
        · first
          | (rw [h2, vAt_posOf hn r ha] at hc; exact absurd hc (by simp [Int.ofNat_eq_natCast]))
          | (rw [h2, vAt_posOf hn r hb] at hc; exact absurd hc (by simp [Int.ofNat_eq_natCast]))
  · simp only [Option.map_some', Option.getD_some, decide_eq_true_eq]
    obtain ⟨hcomp, h1, h2⟩ := emit_components hemit
    constructor
    · intro hor
      rcases hcomp with rfl | rfl
      · rcases hor with heq | heq <;> rw [Prod.mk.injEq] at heq
        · exact Or.inl ⟨posOf_eq_of_vAt hn r ha hiL heq.1,
            posOf_eq_of_vAt hn r hb hIL heq.2⟩
        · exact Or.inr ⟨posOf_eq_of_vAt hn r hb hiL heq.1,
            posOf_eq_of_vAt hn r ha hIL heq.2⟩
      · rcases hor with heq | heq <;> rw [Prod.mk.injEq] at heq
        · exact Or.inr ⟨posOf_eq_of_vAt hn r hb hiL heq.2,
            posOf_eq_of_vAt hn r ha hIL heq.1⟩
        · exact Or.inl ⟨posOf_eq_of_vAt hn r ha hiL heq.2,
            posOf_eq_of_vAt hn r hb hIL heq.1⟩
    · rintro (⟨hA, hB⟩ | ⟨hA, hB⟩)
      · have hvA : vAt n r i = Int.ofNat a := by rw [hA]; exact vAt_posOf hn r ha
        have hvB : vAt n r (tailLen n - i) = Int.ofNat b := by
          rw [hB]; exact vAt_posOf hn r hb
        rcases hcomp with rfl | rfl
        · exact Or.inl (by rw [hvA, hvB])
        · exact Or.inr (by rw [hvA, hvB])
      · have hvA : vAt n r i = Int.ofNat b := by rw [hA]; exact vAt_posOf hn r hb
        have hvB : vAt n r (tailLen n - i) = Int.ofNat a := by
          rw [hB]; exact vAt_posOf hn r ha
        rcases hcomp with rfl | rfl
        · exact Or.inr (by rw [hvA, hvB])
        · exact Or.inl (by rw [hvA, hvB])

theorem round_pair_count {n a b : Nat} (hn : 2 ≤ n) (ha : a < n) (hb : b < n)
    (hab : a ≠ b) (r : Nat) :
    ((List.range ((tailLen n + 1) / 2)).filterMap (emit n r)).countP
      (fun mt => decide (mt = (Int.ofNat a, Int.ofNat b) ∨
        mt = (Int.ofNat b, Int.ofNat a)))
    = if posOf n r a + posOf n r b = tailLen n then 1 else 0 := by
  have hL := tailLen_pos hn
  have hLodd := tailLen_odd hn
  have hpa := posOf_le hn r a
  have hpb := posOf_le hn r b
  have hpab : posOf n r a ≠ posOf n r b := by
    intro he
    have h1 := vAt_posOf hn r ha
    rw [he, vAt_posOf hn r hb] at h1
    exact hab (Int.ofNat_inj.mp h1.symm)
  rw [countP_filterMap]
  split_ifs with hmeet
  · have hcongr : (List.range ((tailLen n + 1) / 2)).countP
        (fun x => (((emit n r x).map (fun mt =>
          decide (mt = (Int.ofNat a, Int.ofNat b) ∨
            mt = (Int.ofNat b, Int.ofNat a)))).getD false))
        = (List.range ((tailLen n + 1) / 2)).countP
            (fun x => x == min (posOf n r a) (posOf n r b)) := by
      apply List.countP_congr
      intro i hi
      rw [List.mem_range] at hi
      rw [emit_pair_iff hn ha hb r i hi, beq_iff_eq]
      constructor
      · rintro (⟨h1, h2⟩ | ⟨h1, h2⟩) <;> (rw [Nat.min_def]; split_ifs <;> omega)
      · intro h1
        rw [Nat.min_def] at h1
        split_ifs at h1 with hle
        · exact Or.inl ⟨h1, by omega⟩
        · exact Or.inr ⟨h1, by omega⟩
    rw [hcongr, ← List.count_eq_countP]
    apply List.count_eq_one_of_mem (List.nodup_range _)
    rw [List.mem_range, Nat.min_def]
    split_ifs <;> omega
  · apply List.countP_eq_zero.mpr
    intro i hi
    rw [List.mem_range] at hi
    rw [emit_pair_iff hn ha hb r i hi]
    rintro (⟨h1, h2⟩ | ⟨h1, h2⟩) <;> omega

theorem meets_mod_char {n a b : Nat} (hn3 : 3 ≤ n) (hapos : 1 ≤ a) (hbpos : 1 ≤ b)
    (r : Nat) :
    (posOf n r a + posOf n r b = tailLen n) ↔
      ((a - 1 + r) % tailLen n + (b - 1 + r) % tailLen n = tailLen n - 2) := by
  have hL2 : 2 ≤ tailLen n := by unfold tailLen; split <;> omega
  unfold posOf
  rw [if_neg (by omega), if_neg (by omega)]
  constructor <;> intro h <;> omega

theorem pos_sum_modeq {a b r L : Nat} (hapos : 1 ≤ a) (hbpos : 1 ≤ b) :
    (a - 1 + r) % L + (b - 1 + r) % L ≡ (a + b - 2) + 2 * r [MOD L] := by
  have h := (Nat.mod_modEq (a - 1 + r) L).add (Nat.mod_modEq (b - 1 + r) L)
  have e : (a - 1 + r) + (b - 1 + r) = (a + b - 2) + 2 * r := by omega
  rwa [e] at h

theorem two_mul_r0_modeq {c L : Nat} (hLodd : L % 2 = 1) :
    2 * ((c * ((L + 1) / 2)) % L) ≡ c [MOD L] := by
  have step1 : (c * ((L + 1) / 2)) % L ≡ c * ((L + 1) / 2) [MOD L] := Nat.mod_modEq _ _
  have step2 := step1.mul_left 2
  have e1 : 2 * (c * ((L + 1) / 2)) = c * L + c := by
    have h4 : 2 * ((L + 1) / 2) = L + 1 := by omega
    rw [show 2 * (c * ((L + 1) / 2)) = c * (2 * ((L + 1) / 2)) from by ring, h4]
    ring
  rw [e1] at step2
  refine step2.trans ?_
  refine ((Nat.modEq_zero_iff_dvd.mpr ⟨c, mul_comm c L⟩).add_right c).trans ?_
  rw [zero_add]

theorem meets_unique {n a b : Nat} (hn : 2 ≤ n) (ha : a < n) (hb : b < n)
    (hab : a ≠ b) :
    ∃! r : Nat, r < tailLen n ∧ posOf n r a + posOf n r b = tailLen n := by
  have hL := tailLen_pos hn
  have hLodd := tailLen_odd hn
  have hLge := tailLen_ge (n := n)
  have hLle := tailLen_le (n := n)
  rcases Nat.eq_zero_or_pos a with rfl | hapos
  · -- a = 0, so b ≥ 1
    have hbpos : 1 ≤ b := by omega
    refine ⟨tailLen n - b, ⟨by omega, ?_⟩, ?_⟩
    · show posOf n (tailLen n - b) 0 + posOf n (tailLen n - b) b = tailLen n
      unfold posOf
      rw [if_pos rfl, if_neg (by omega)]
      have e : b - 1 + (tailLen n - b) = tailLen n - 1 := by omega
      rw [e, Nat.mod_eq_of_lt (by omega)]
      omega
    · rintro r ⟨hr, hm⟩
      unfold posOf at hm
      rw [if_pos rfl, if_neg (by omega)] at hm
      have hm2 : (b - 1 + r) % tailLen n = tailLen n - 1 := by omega
      have hm3 : (b - 1 + (tailLen n - b)) % tailLen n = tailLen n - 1 := by
        have e : b - 1 + (tailLen n - b) = tailLen n - 1 := by omega
        rw [e, Nat.mod_eq_of_lt (by omega)]
      have hmod : b - 1 + r ≡ b - 1 + (tailLen n - b) [MOD tailLen n] := by
        show (b - 1 + r) % tailLen n = (b - 1 + (tailLen n - b)) % tailLen n
        rw [hm2, hm3]
      exact modEq_eq_of_lt (Nat.ModEq.add_left_cancel' (b - 1) hmod) hr (by omega)
  rcases Nat.eq_zero_or_pos b with rfl | hbpos
  · -- b = 0, a ≥ 1
    refine ⟨tailLen n - a, ⟨by omega, ?_⟩, ?_⟩
    · show posOf n (tailLen n - a) a + posOf n (tailLen n - a) 0 = tailLen n
      unfold posOf
      rw [if_pos rfl, if_neg (by omega)]
      have e : a - 1 + (tailLen n - a) = tailLen n - 1 := by omega
      rw [e, Nat.mod_eq_of_lt (by omega)]
      omega
    · rintro r ⟨hr, hm⟩
      unfold posOf at hm
      rw [if_pos rfl, if_neg (by omega)] at hm
      have hm2 : (a - 1 + r) % tailLen n = tailLen n - 1 := by omega
      have hm3 : (a - 1 + (tailLen n - a)) % tailLen n = tailLen n - 1 := by
        have e : a - 1 + (tailLen n - a) = tailLen n - 1 := by omega
        rw [e, Nat.mod_eq_of_lt (by omega)]
      have hmod : a - 1 + r ≡ a - 1 + (tailLen n - a) [MOD tailLen n] := by
        show (a - 1 + r) % tailLen n = (a - 1 + (tailLen n - a)) % tailLen n
        rw [hm2, hm3]
      exact modEq_eq_of_lt (Nat.ModEq.add_left_cancel' (a - 1) hmod) hr (by omega)
  · -- a, b ≥ 1: n ≥ 3 and tailLen n ≥ 2
    have hn3 : 3 ≤ n := by omega
    have hL2 : 2 ≤ tailLen n := by unfold tailLen; split <;> omega
    have hgcd : Nat.gcd (tailLen n) 2 = 1 :=
      Nat.coprime_two_right.mpr (Nat.odd_iff.mpr hLodd)
    refine ⟨(3 * tailLen n - a - b) * ((tailLen n + 1) / 2) % tailLen n,
      ⟨Nat.mod_lt _ (by omega), ?_⟩, ?_⟩
    · rw [meets_mod_char hn3 hapos hbpos]
      have h2r0 := two_mul_r0_modeq (c := 3 * tailLen n - a - b) (L := tailLen n) hLodd
      have hmod : (a - 1 + (3 * tailLen n - a - b) * ((tailLen n + 1) / 2) % tailLen n)
            % tailLen n
          + (b - 1 + (3 * tailLen n - a - b) * ((tailLen n + 1) / 2) % tailLen n)
            % tailLen n
          ≡ tailLen n - 2 [MOD tailLen n] := by
        refine (pos_sum_modeq hapos hbpos).trans ?_
        refine (h2r0.add_left (a + b - 2)).trans ?_
        have e2 : (a + b - 2) + (3 * tailLen n - a - b) =
            2 * tailLen n + (tailLen n - 2) := by omega
        rw [e2]
        refine ((Nat.modEq_zero_iff_dvd.mpr ⟨2, mul_comm 2 (tailLen n)⟩).add_right
          (tailLen n - 2)).trans ?_
        rw [zero_add]
      have hu := Nat.mod_lt (a - 1 + (3 * tailLen n - a - b) * ((tailLen n + 1) / 2)
        % tailLen n) (show 0 < tailLen n by omega)
      have hv := Nat.mod_lt (b - 1 + (3 * tailLen n - a - b) * ((tailLen n + 1) / 2)
        % tailLen n) (show 0 < tailLen n by omega)
      have hm2 : ((a - 1 + (3 * tailLen n - a - b) * ((tailLen n + 1) / 2) % tailLen n)
            % tailLen n
          + (b - 1 + (3 * tailLen n - a - b) * ((tailLen n + 1) / 2) % tailLen n)
            % tailLen n) % tailLen n = tailLen n - 2 := by
        have := hmod
        show _ % tailLen n = _
        rw [this]
        exact Nat.mod_eq_of_lt (by omega)
      rcases Nat.lt_or_ge ((a - 1 + (3 * tailLen n - a - b) * ((tailLen n + 1) / 2)
            % tailLen n) % tailLen n
          + (b - 1 + (3 * tailLen n - a - b) * ((tailLen n + 1) / 2) % tailLen n)
            % tailLen n) (tailLen n) with hlt | hge
      · rw [Nat.mod_eq_of_lt hlt] at hm2
        omega
      · rw [Nat.mod_eq_sub_mod hge, Nat.mod_eq_of_lt (by omega)] at hm2
        exfalso
        -- the 2L-2 case forces the two residues equal, hence a = b
        have h2L : (a - 1 + (3 * tailLen n - a - b) * ((tailLen n + 1) / 2) % tailLen n)
              % tailLen n = tailLen n - 1
            ∧ (b - 1 + (3 * tailLen n - a - b) * ((tailLen n + 1) / 2) % tailLen n)
              % tailLen n = tailLen n - 1 := by omega
        have heqmod : a - 1 + (3 * tailLen n - a - b) * ((tailLen n + 1) / 2) % tailLen n
            ≡ b - 1 + (3 * tailLen n - a - b) * ((tailLen n + 1) / 2) % tailLen n
              [MOD tailLen n] := by
          show _ % tailLen n = _ % tailLen n
          rw [h2L.1, h2L.2]
        have hab2 : a - 1 = b - 1 :=
          modEq_eq_of_lt (Nat.ModEq.add_right_cancel' _ heqmod) (by omega) (by omega)
        exact hab (by omega)
    · rintro r ⟨hr, hm⟩
      rw [meets_mod_char hn3 hapos hbpos] at hm
      have hsum1 := pos_sum_modeq (a := a) (b := b) (r := r) (L := tailLen n) hapos hbpos
      have h2r0 := two_mul_r0_modeq (c := 3 * tailLen n - a - b) (L := tailLen n) hLodd
      -- the chosen round also meets, reuse its congruence
      have hmeet0 : (a + b - 2) + 2 * ((3 * tailLen n - a - b) * ((tailLen n + 1) / 2)
          % tailLen n) ≡ tailLen n - 2 [MOD tailLen n] := by
        refine (h2r0.add_left (a + b - 2)).trans ?_
        have e2 : (a + b - 2) + (3 * tailLen n - a - b) =
            2 * tailLen n + (tailLen n - 2) := by omega
        rw [e2]
        refine ((Nat.modEq_zero_iff_dvd.mpr ⟨2, mul_comm 2 (tailLen n)⟩).add_right
          (tailLen n - 2)).trans ?_
        rw [zero_add]
      have hch : (a + b - 2) + 2 * r ≡ (a + b - 2) + 2 * ((3 * tailLen n - a - b)
          * ((tailLen n + 1) / 2) % tailLen n) [MOD tailLen n] := by
        refine (hsum1.symm.trans ?_).trans hmeet0.symm
        show _ % tailLen n = _ % tailLen n
        rw [hm, Nat.mod_eq_of_lt (by omega)]
      have h2r : 2 * r ≡ 2 * ((3 * tailLen n - a - b) * ((tailLen n + 1) / 2)
          % tailLen n) [MOD tailLen n] := Nat.ModEq.add_left_cancel' _ hch
      exact modEq_eq_of_lt (Nat.ModEq.cancel_left_of_coprime hgcd h2r) hr
        (Nat.mod_lt _ (by omega))

theorem list_map_range_sum (g : Nat → Nat) (m : Nat) :
    ((List.range m).map g).sum = ∑ r in Finset.range m, g r := rfl

/-- C1: for every n ≥ 2 and distinct team ids a, b < n, the schedule built by
`round_robin_pairs` contains the unordered pair {a, b} in exactly one match
across all rounds, counting both orientations (a, b) and (b, a). -/
theorem round_robin_pairs_once {n a b : Nat} (hn : 2 ≤ n) (ha : a < n) (hb : b < n)
    (hab : a ≠ b) :
    pairCount (round_robin_pairs n) (Int.ofNat a) (Int.ofNat b) = 1 := by
  rw [round_robin_eq2 hn]
  unfold pairCount
  rw [List.map_map, list_map_range_sum]
  obtain ⟨r0, ⟨hr0, hm0⟩, huniq⟩ := meets_unique hn ha hb hab
  refine (Finset.sum_eq_single_of_mem r0 (Finset.mem_range.mpr hr0) ?_).trans ?_
  · intro r hr hne
    simp only [Function.comp_apply]
    rw [round_pair_count hn ha hb hab r, if_neg]
    intro hm
    exact hne (huniq r ⟨Finset.mem_range.mp hr, hm⟩)
  · simp only [Function.comp_apply]
    rw [round_pair_count hn ha hb hab r0, if_pos hm0]

theorem round_robin_pairs_once_witness :
    2 ≤ 4 ∧ (0 : Nat) < 4 ∧ (1 : Nat) < 4 ∧ (0 : Nat) ≠ 1 ∧
    pairCount (round_robin_pairs 4) (Int.ofNat 0) (Int.ofNat 1) = 1 :=
  ⟨by decide, by decide, by decide, by decide,
    round_robin_pairs_once (by decide) (by decide) (by decide) (by decide)⟩


theorem pyGet_mem {α : Type} {l : List α} {i : Int} {x : α}
    (h : pyGet l i = some x) : x ∈ l := by
  unfold pyGet at h
  rcases hidx : pyIdx l.length i with _ | j
  · rw [hidx] at h
    exact absurd h (by simp)
  · rw [hidx] at h
    exact List.get?_mem h

theorem heapValue_frame {h h' : PyHeap} {b : Nat}
    (hs : h'.scheds.getD b [] = h.scheds.getD b [])
    (hr : ∀ ra ∈ h.scheds.getD b [], h'.rounds.getD ra [] = h.rounds.getD ra []) :
    heapValue h' b = heapValue h b := by
  unfold heapValue
  rw [hs]
  exact List.map_congr_left hr

theorem mem_fresh_ge {base len x : Nat}
    (hx : x ∈ (List.range len).map fun i => base + i) : base ≤ x := by
  rw [List.mem_map] at hx
  obtain ⟨i, -, rfl⟩ := hx
  omega

theorem fresh_getD_mem {base len k : Nat} (hk : k < len) :
    ((List.range len).map fun i => base + i).getD k 0 ∈
      (List.range len).map fun i => base + i :=
  mem_getD_of_lt (by simp [hk])

theorem copy_scheds_getD {h : PyHeap} {a b : Nat} (hb : b < h.scheds.length) :
    (heapDeepcopy h a).1.scheds.getD b [] = h.scheds.getD b [] :=
  List.getD_append _ _ _ _ hb

theorem copy_rounds_getD {h : PyHeap} {a : Nat} {ra : Nat}
    (hra : ra < h.rounds.length) :
    (heapDeepcopy h a).1.rounds.getD ra [] = h.rounds.getD ra [] :=
  List.getD_append _ _ _ _ hra

theorem copy_addr_getD {h : PyHeap} {a : Nat} :
    (heapDeepcopy h a).1.scheds.getD (heapDeepcopy h a).2 [] =
      (List.range (h.scheds.getD a []).length).map fun i => h.rounds.length + i := by
  show ((h.scheds ++ [_]).getD h.scheds.length []) = _
  rw [List.getD_append_right _ _ _ _ (le_refl _)]
  simp

theorem copy_value {h : PyHeap} {a b : Nat} (hwf : heapWF h b) :
    heapValue (heapDeepcopy h a).1 b = heapValue h b :=
  heapValue_frame (copy_scheds_getD hwf.1)
    (fun ra hra => copy_rounds_getD (hwf.2 ra hra))

theorem heapPairSwaps_frame {addrs : List Nat} {r1 r2 : Int}
    {ps : List (Int × Int)} {rounds rounds' : List (List TMatch)}
    (h : heapPairSwaps addrs r1 r2 ps rounds = some rounds')
    {j : Nat} (hj : j ∉ addrs) : rounds'.getD j [] = rounds.getD j [] := by
  induction ps generalizing rounds with
  | nil =>
    unfold heapPairSwaps at h
    rw [Option.some_inj] at h
    rw [← h]
  | cons p rest ih =>
    obtain ⟨idx1, idx2⟩ := p
    unfold heapPairSwaps at h
    simp only [Option.bind_eq_bind, Option.bind_eq_some] at h
    obtain ⟨ra1, hra1, h⟩ := h
    obtain ⟨ra2, hra2, h⟩ := h
    obtain ⟨v2, hv2, h⟩ := h
    obtain ⟨v1, hv1, h⟩ := h
    obtain ⟨j1, hj1, h⟩ := h
    obtain ⟨j2, hj2, h⟩ := h
    rw [ih h,
      list_getD_set_ne (show ra2 ≠ j from fun hc => hj (hc ▸ pyGet_mem hra2)),
      list_getD_set_ne (show ra1 ≠ j from fun hc => hj (hc ▸ pyGet_mem hra1))]

theorem heap_swap_rounds_frame (h : PyHeap) (a : Nat) (hwf : heapWF h a)
    (r1 r2 : Int) :
    heapValue (heap_move_swap_rounds h a r1 r2).1 a = heapValue h a ∧
    (heap_move_swap_rounds h a r1 r2).2.1 ≠ a := by
  obtain ⟨hwa, hwr⟩ := hwf
  unfold heap_move_swap_rounds
  simp only []
  split_ifs with hc
  · exact ⟨copy_value ⟨hwa, hwr⟩, by show h.scheds.length ≠ a; omega⟩
  · refine ⟨heapValue_frame ?_ ?_, by show h.scheds.length ≠ a; omega⟩
    · show ((heapDeepcopy h a).1.scheds.set (heapDeepcopy h a).2 _).getD a [] = _
      rw [list_getD_set_ne (show (heapDeepcopy h a).2 ≠ a from by
        show h.scheds.length ≠ a; omega)]
      exact copy_scheds_getD hwa
    · intro ra hra
      exact copy_rounds_getD (hwr ra hra)

theorem heapValue_length (h : PyHeap) (a : Nat) :
    (heapValue h a).length = (h.scheds.getD a []).length := by
  unfold heapValue
  rw [List.length_map]

theorem heap_flip_venue_frame (h : PyHeap) (a : Nat) (hwf : heapWF h a)
    (round_idx match_idx : Int) :
    heapValue (heap_move_flip_venue h a round_idx match_idx).1 a = heapValue h a ∧
    (heap_move_flip_venue h a round_idx match_idx).2.1 ≠ a := by
  obtain ⟨hwa, hwr⟩ := hwf
  unfold heap_move_flip_venue
  simp only []
  split_ifs with hc
  · exact ⟨copy_value ⟨hwa, hwr⟩, by show h.scheds.length ≠ a; omega⟩
  · push_neg at hc
    have hk : round_idx.toNat < (h.scheds.getD a []).length := by
      have h2 := hc.2.1
      rw [heapValue_length] at h2
      omega
    refine ⟨heapValue_frame ?_ ?_, by show h.scheds.length ≠ a; omega⟩
    · exact copy_scheds_getD hwa
    · intro ra' hra'
      have hge : h.rounds.length ≤
          ((heapDeepcopy h a).1.scheds.getD (heapDeepcopy h a).2 []).getD
            round_idx.toNat 0 := by
        rw [copy_addr_getD]
        exact mem_fresh_ge (fresh_getD_mem (by simpa using hk))
      rw [list_getD_set_ne (show ((heapDeepcopy h a).1.scheds.getD
          (heapDeepcopy h a).2 []).getD round_idx.toNat 0 ≠ ra' from by
        have := hwr ra' hra'
        omega)]
      exact copy_rounds_getD (hwr ra' hra')

theorem heap_swap_matches_frame (h : PyHeap) (a : Nat) (hwf : heapWF h a)
    (r1 i1 r2 i2 : Int) :
    heapValue (heap_move_swap_matches h a r1 i1 r2 i2).1 a = heapValue h a ∧
    (heap_move_swap_matches h a r1 i1 r2 i2).2.1 ≠ a := by
  obtain ⟨hwa, hwr⟩ := hwf
  unfold heap_move_swap_matches
  simp only []
  split_ifs with hc1 hc2
  · exact ⟨copy_value ⟨hwa, hwr⟩, by show h.scheds.length ≠ a; omega⟩
  · exact ⟨copy_value ⟨hwa, hwr⟩, by show h.scheds.length ≠ a; omega⟩
  · push_neg at hc1
    have hk1 : r1.toNat < (h.scheds.getD a []).length := by
      have h2 := hc1.2.2.1
      rw [heapValue_length] at h2
      omega
    have hk2 : r2.toNat < (h.scheds.getD a []).length := by
      have h2 := hc1.2.2.2.1
      rw [heapValue_length] at h2
      omega
    refine ⟨heapValue_frame ?_ ?_, by show h.scheds.length ≠ a; omega⟩
    · exact copy_scheds_getD hwa
    · intro ra' hra'
      have hge1 : h.rounds.length ≤
          ((heapDeepcopy h a).1.scheds.getD (heapDeepcopy h a).2 []).getD
            r1.toNat 0 := by
        rw [copy_addr_getD]
        exact mem_fresh_ge (fresh_getD_mem (by simpa using hk1))
      have hge2 : h.rounds.length ≤
          ((heapDeepcopy h a).1.scheds.getD (heapDeepcopy h a).2 []).getD
            r2.toNat 0 := by
        rw [copy_addr_getD]
        exact mem_fresh_ge (fresh_getD_mem (by simpa using hk2))
      rw [list_getD_set_ne (show ((heapDeepcopy h a).1.scheds.getD
          (heapDeepcopy h a).2 []).getD r2.toNat 0 ≠ ra' from by
        have := hwr ra' hra'
        omega)]
      rw [list_getD_set_ne (show ((heapDeepcopy h a).1.scheds.getD
          (heapDeepcopy h a).2 []).getD r1.toNat 0 ≠ ra' from by
        have := hwr ra' hra'
        omega)]
      exact copy_rounds_getD (hwr ra' hra')

theorem heap_swap_pairings_frame (h : PyHeap) (a : Nat) (hwf : heapWF h a)
    (r1 r2 : Int) (ps : List (Int × Int)) (out : PyHeap × Nat × Bool)
    (hout : heap_move_swap_pairings h a r1 r2 ps = some out) :
    heapValue out.1 a = heapValue h a ∧ out.2.1 ≠ a := by
  obtain ⟨hwa, hwr⟩ := hwf
  unfold heap_move_swap_pairings at hout
  simp only [] at hout
  split_ifs at hout with hc
  · rw [Option.some_inj] at hout
    subst hout
    exact ⟨copy_value ⟨hwa, hwr⟩, by show h.scheds.length ≠ a; omega⟩
  · simp only [Option.bind_eq_bind, Option.bind_eq_some] at hout
    obtain ⟨res, hres, hout⟩ := hout
    split at hout
    · rw [Option.pure_def, Option.some_inj] at hout
      subst hout
      exact ⟨copy_value ⟨hwa, hwr⟩, by show h.scheds.length ≠ a; omega⟩
    · split at hout
      · rw [Option.pure_def, Option.some_inj] at hout
        subst hout
        exact ⟨copy_value ⟨hwa, hwr⟩, by show h.scheds.length ≠ a; omega⟩
      · simp only [Option.bind_eq_bind, Option.bind_eq_some] at hout
        obtain ⟨rounds2, hps, hout⟩ := hout
        rw [Option.pure_def, Option.some_inj] at hout
        subst hout
        refine ⟨heapValue_frame ?_ ?_, by show h.scheds.length ≠ a; omega⟩
        · exact copy_scheds_getD hwa
        · intro ra' hra'
          have hfr := heapPairSwaps_frame hps (j := ra') ?_
          · rw [hfr]
            exact copy_rounds_getD (hwr ra' hra')
          · rw [copy_addr_getD]
            intro hmem
            have := mem_fresh_ge hmem
            have := hwr ra' hra'
            omega

/-- C7: on every returning call, each move primitive leaves the value of the
input schedule object unchanged in the heap and returns a distinct (fresh)
schedule object: the original is equal, round for round and match for match,
to what it was before the call. -/
theorem move_primitives_no_mutation (h : PyHeap) (a : Nat) (hwf : heapWF h a) :
    (∀ r1 r2 : Int,
      heapValue (heap_move_swap_rounds h a r1 r2).1 a = heapValue h a ∧
      (heap_move_swap_rounds h a r1 r2).2.1 ≠ a) ∧
    (∀ r1 i1 r2 i2 : Int,
      heapValue (heap_move_swap_matches h a r1 i1 r2 i2).1 a = heapValue h a ∧
      (heap_move_swap_matches h a r1 i1 r2 i2).2.1 ≠ a) ∧
    (∀ round_idx match_idx : Int,
      heapValue (heap_move_flip_venue h a round_idx match_idx).1 a = heapValue h a ∧
      (heap_move_flip_venue h a round_idx match_idx).2.1 ≠ a) ∧
    (∀ (r1 r2 : Int) (ps : List (Int × Int)) (out : PyHeap × Nat × Bool),
      heap_move_swap_pairings h a r1 r2 ps = some out →
      heapValue out.1 a = heapValue h a ∧ out.2.1 ≠ a) :=
  ⟨heap_swap_rounds_frame h a hwf, heap_swap_matches_frame h a hwf,
   heap_flip_venue_frame h a hwf, heap_swap_pairings_frame h a hwf⟩

theorem move_primitives_no_mutation_witness :
    heapValue (heap_move_swap_rounds ⟨[[0, 1]], [[(0, 1)], [(2, 3)]]⟩ 0 0 1).1 0 =
      heapValue ⟨[[0, 1]], [[(0, 1)], [(2, 3)]]⟩ 0 ∧
    (heap_move_swap_rounds ⟨[[0, 1]], [[(0, 1)], [(2, 3)]]⟩ 0 0 1).2.1 ≠ 0 :=
  (move_primitives_no_mutation ⟨[[0, 1]], [[(0, 1)], [(2, 3)]]⟩ 0
    (by unfold heapWF; refine ⟨by decide, by decide⟩)).1 0 1
